import Mathlib

/-!
# Verification of the cross-regime-alpha quantitative data pipeline

Shallow embedding of the pipeline's core modules:

* `src/cross_regime_alpha/data/normalization.py` (quality stage)
* `src/cross_regime_alpha/indicators/engine.py` (indicator engine)
* `src/cross_regime_alpha/signals/regime.py` (regime filter)
* `src/cross_regime_alpha/signals/trend.py` (trend filter)
* `src/cross_regime_alpha/data/ibkr_ingestion.py` (ingestion)

Conventions of the embedding:

* pandas nullable cells become `Option` values (`none` = NaN/NaT/None);
* floats become `ℚ` (exact arithmetic; the float-specific `replace([inf,-inf])`
  guards are no-ops over `ℚ` and are noted where they occur in the source);
* `sort_values` over key columns becomes a stable insertion sort by the same
  keys, with `na_position` defaulting to last as in pandas;
* `drop_duplicates(keep="last")` / `duplicated(keep="last")` become
  `keepLastPerKey`, which keeps the last occurrence of each key;
* filesystem partition directories become lists of part files.
-/

namespace CrossRegimeAlpha

/-- pandas-style comparison `a > b`: `False` whenever either side is NaN. -/
def optGt (a b : Option ℚ) : Bool :=
  match a, b with
  | some x, some y => decide (y < x)
  | _, _ => false

/-- pandas-style comparison `a >= b`: `False` whenever either side is NaN. -/
def optGe (a b : Option ℚ) : Bool :=
  match a, b with
  | some x, some y => decide (y ≤ x)
  | _, _ => false

/-- pandas-style comparison `a <= b`: `False` whenever either side is NaN. -/
def optLeB (a b : Option ℚ) : Bool :=
  match a, b with
  | some x, some y => decide (x ≤ y)
  | _, _ => false

/-- `duplicated(subset=key, keep="last")` filtering: keep a row iff no later
row in the list has the same key. -/
def keepLastPerKey {α κ : Type} [DecidableEq κ] (key : α → κ) : List α → List α
  | [] => []
  | r :: rest =>
    if rest.any (fun x => key x = key r) then keepLastPerKey key rest
    else r :: keepLastPerKey key rest

/-- Sort order on a nullable integer key with `na_position="last"`:
`none` (NaT/NaN) sorts after every value. -/
def optKeyLe (a b : Option ℤ) : Bool :=
  match a, b with
  | none, none => true
  | none, some _ => false
  | some _, none => true
  | some x, some y => decide (x ≤ y)

/-- Strict version of `optKeyLe` (`none` is the greatest element). -/
def optKeyLt (a b : Option ℤ) : Bool :=
  match a, b with
  | none, _ => false
  | some _, none => true
  | some x, some y => decide (x < y)

/-- Strict lexicographic order on character lists (python string `<`). -/
def charListLt : List Char → List Char → Bool
  | _, [] => false
  | [], _ :: _ => true
  | a :: as, b :: bs => decide (a < b) || (a = b && charListLt as bs)

/-- python `sorted` order on symbol strings. -/
def strLeB (a b : String) : Bool :=
  if a = b then true else charListLt a.data b.data

/-- python `str.strip()` at the character level. -/
def trimChars (l : List Char) : List Char :=
  ((l.dropWhile Char.isWhitespace).reverse.dropWhile Char.isWhitespace).reverse

/-- pandas `symbol.strip().upper()` (`str.strip().str.upper()`), modelled at
the character level. -/
def normalizeSymbol (s : String) : String :=
  String.mk ((trimChars s.data).map Char.toUpper)

/-- `astype("int64")` on a float column: truncation toward zero. -/
def ratTrunc (q : ℚ) : ℤ := q.num.tdiv (q.den : ℤ)

/-- Row-wise `max(axis=1)` over two nullable cells (pandas skips NaN). -/
def optMax2 (a b : Option ℚ) : Option ℚ :=
  match a, b with
  | none, b => b
  | some x, none => some x
  | some x, some y => some (max x y)

/-- Row-wise `min(axis=1)` over two nullable cells (pandas skips NaN). -/
def optMin2 (a b : Option ℚ) : Option ℚ :=
  match a, b with
  | none, b => b
  | some x, none => some x
  | some x, some y => some (min x y)

def optMax3 (a b c : Option ℚ) : Option ℚ := optMax2 (optMax2 a b) c

def optMin3 (a b c : Option ℚ) : Option ℚ := optMin2 (optMin2 a b) c

/-- `sorted(set(l))` for integer date sets. -/
def sortedDedupInts (l : List ℤ) : List ℤ :=
  List.insertionSort (· ≤ ·) l.dedup

/-- `sorted(set(l))` for symbol sets. -/
def sortedDedupStrings (l : List String) : List String :=
  List.insertionSort (fun a b => strLeB a b = true) l.dedup

/-! ## Quality stage (`data/normalization.py`) -/

/-- A normalized row after `_prepare_types`: the columns the quality stage
reads.  Numeric cells are nullable (`to_numeric(errors="coerce")`), the date
cell is nullable (`to_datetime(errors="coerce")`), the symbol is a plain
string (`astype(str)` never yields null). -/
structure NormRow where
  symbol : String
  date : Option ℤ
  open_ : Option ℚ
  high : Option ℚ
  low : Option ℚ
  close : Option ℚ
  adj_close : Option ℚ
  volume : Option ℚ
deriving DecidableEq

/-- The `(symbol, date)` deduplication key. -/
def normKey (r : NormRow) : String × Option ℤ := (r.symbol, r.date)

/-- `sort_values(["symbol", "date"])` order: lexicographic, nulls last. -/
def NormRowLe (a b : NormRow) : Prop :=
  (if a.symbol = b.symbol then optKeyLe a.date b.date
   else charListLt a.symbol.data b.symbol.data) = true

instance : DecidableRel NormRowLe := fun a b => by
  unfold NormRowLe; infer_instance

/-- `_remove_duplicates` (normalization.py, lines 94-99): stable sort by
`(symbol, date)`, drop all but the last row of each key, and count removals. -/
def removeDuplicates (rows : List NormRow) : List NormRow × ℕ :=
  let ordered := List.insertionSort NormRowLe rows
  let deduped := keepLastPerKey normKey ordered
  (deduped, rows.length - deduped.length)

/-- `_remove_invalid_rows` validity mask (normalization.py, lines 102-109). -/
def validRow (r : NormRow) : Bool :=
  (r.date.isSome && r.open_.isSome && r.high.isSome && r.low.isSome &&
      r.close.isSome && r.adj_close.isSome && r.volume.isSome)
    && (optGt r.open_ (some 0) && optGt r.high (some 0) && optGt r.low (some 0)
      && optGt r.close (some 0) && optGt r.adj_close (some 0))
    && optGe r.volume (some 0)
    && optGe r.high (optMax3 r.open_ r.close r.low)
    && optLeB r.low (optMin3 r.open_ r.close r.high)

/-- `_remove_invalid_rows` (normalization.py, lines 102-113): keep valid rows,
cast the surviving volume column to int64, report the dropped count. -/
def removeInvalidRows (rows : List NormRow) : List NormRow × ℕ :=
  let valid := rows.filter validRow
  (valid.map (fun r => { r with volume := r.volume.map (fun v => ((ratTrunc v : ℤ) : ℚ)) }),
    (rows.filter (fun r => !validRow r)).length)

/-- A row after `_flag_outliers`: the normalized row plus the day-over-day
return and the outlier flag. -/
structure FlaggedRow extends NormRow where
  daily_return : Option ℚ
  is_outlier_jump : Bool
deriving DecidableEq

/-- The `(symbol, date)` key of a flagged row. -/
def flaggedKey (r : FlaggedRow) : String × Option ℤ := (r.symbol, r.date)

/-- `groupby("symbol")["adj_close"].pct_change()` down a sorted frame: each
row's return is computed against the closest earlier row of the same symbol
(`seen` carries the last `adj_close` per symbol; `none` when either side is
null).  Division is exact over `ℚ`; prices are strictly positive after
validation, so the float `inf` zone is unreachable. -/
def pctChangeAux (threshold : ℚ) (seen : List (String × Option ℚ)) :
    List NormRow → List FlaggedRow
  | [] => []
  | r :: rest =>
    let prev : Option ℚ :=
      match seen.find? (fun p => p.1 = r.symbol) with
      | some p => p.2
      | none => none
    let ret : Option ℚ :=
      match r.adj_close, prev with
      | some c, some p => some (c / p - 1)
      | _, _ => none
    { toNormRow := r
      daily_return := ret
      is_outlier_jump :=
        match ret with
        | some x => decide (threshold < |x|)
        | none => false } :: pctChangeAux threshold ((r.symbol, r.adj_close) :: seen) rest

/-- `_flag_outliers` (normalization.py, lines 116-121): sort by
`(symbol, date)`, compute per-symbol daily returns of `adj_close`, flag
`|daily_return| > threshold`, count the flags. -/
def flagOutliers (rows : List NormRow) (threshold : ℚ) : List FlaggedRow × ℕ :=
  let flagged := pctChangeAux threshold [] (List.insertionSort NormRowLe rows)
  (flagged, (flagged.filter (fun r => r.is_outlier_jump)).length)

/-- A cleaned (calendar-aligned) output row.  The key `(symbol, date)` comes
from the synthesized calendar, so the date is never null; all data cells stay
nullable and missing pairs carry `is_missing_bar = true`. -/
structure AlignedRow where
  symbol : String
  date : ℤ
  open_ : Option ℚ
  high : Option ℚ
  low : Option ℚ
  close : Option ℚ
  adj_close : Option ℚ
  volume : Option ℚ
  daily_return : Option ℚ
  is_outlier_jump : Option Bool
  is_missing_bar : Bool
deriving DecidableEq

/-- The merge result for a calendar pair matched by a source row. -/
def alignedOfMatch (s : String) (d : ℤ) (r : FlaggedRow) : AlignedRow :=
  { symbol := s, date := d, open_ := r.open_, high := r.high, low := r.low,
    close := r.close, adj_close := r.adj_close, volume := r.volume,
    daily_return := r.daily_return, is_outlier_jump := some r.is_outlier_jump,
    is_missing_bar := r.open_.isNone }

/-- The merge result for a calendar pair with no source row: every data cell
is null (left join) and `is_missing_bar = open.isna() = true`. -/
def alignedMissing (s : String) (d : ℤ) : AlignedRow :=
  { symbol := s, date := d, open_ := none, high := none, low := none,
    close := none, adj_close := none, volume := none, daily_return := none,
    is_outlier_jump := none, is_missing_bar := true }

/-- `requested_symbols` as computed in `_align_to_common_calendar` and in
`normalize_daily_data_cache`: normalized non-blank symbols, sorted set. -/
def requestedSymbolsOf (symbols : List String) : List String :=
  sortedDedupStrings ((symbols.filter (fun s => trimChars s.data ≠ [])).map normalizeSymbol)

/-- The left-merge result of one calendar pair `(s, d)`: the matching source
rows, or the all-null missing row when no source row matches. -/
def alignBlock (rows : List FlaggedRow) (s : String) (d : ℤ) : List AlignedRow :=
  match rows.filter (fun r => decide (r.symbol = s ∧ r.date = some d)) with
  | [] => [alignedMissing s d]
  | ms => ms.map (alignedOfMatch s d)

/-- The rows of `_align_to_common_calendar` (normalization.py, lines 124-138):
the calendar is the sorted set of non-null dates of the input; the output is
the left merge of `requested × calendar` against the input frame, with
`is_missing_bar = open.isna()`. -/
def alignToCommonCalendar (rows : List FlaggedRow) (symbols : List String) :
    List AlignedRow × ℕ :=
  if rows.isEmpty then ([], 0)
  else
    let allDates := sortedDedupInts (rows.filterMap (fun r => r.date))
    let requested₀ := requestedSymbolsOf symbols
    let requested :=
      if requested₀.isEmpty then sortedDedupStrings (rows.map (fun r => r.symbol))
      else requested₀
    let aligned :=
      requested.flatMap (fun s => allDates.flatMap (fun d => alignBlock rows s d))
    (aligned, (aligned.filter (fun r => r.is_missing_bar)).length)

/-- `_prepare_types` symbol normalization (normalization.py, line 80); the
dtype coercions live in the `NormRow` cell types themselves. -/
def prepareTypes (rows : List NormRow) : List NormRow :=
  rows.map (fun r => { r with symbol := normalizeSymbol r.symbol })

/-- Steps 1-3 of the quality pipeline (`normalize_daily_data_cache`,
normalization.py lines 209-212): prepare, deduplicate, validate, flag. -/
def qualityStage3 (rows : List NormRow) (threshold : ℚ) : List FlaggedRow :=
  (flagOutliers (removeInvalidRows (removeDuplicates (prepareTypes rows)).1).1 threshold).1

/-- The calendar derived from the rows surviving steps 1-3. -/
def qualityCalendar (rows : List NormRow) (threshold : ℚ) : List ℤ :=
  sortedDedupInts ((qualityStage3 rows threshold).filterMap (fun r => r.date))

/-- The cleaned row set produced by one quality-stage run
(`normalize_daily_data_cache`, normalization.py line 213). -/
def qualityPipelineRows (rows : List NormRow) (symbols : List String)
    (threshold : ℚ) : List AlignedRow :=
  (alignToCommonCalendar (qualityStage3 rows threshold) symbols).1

/-! ## Partitioned cache store writers -/

/-- A part file inside one `(symbol, year, month)` partition directory. -/
structure PartFile (ρ : Type) where
  name : String
  rows : List ρ
deriving DecidableEq

/-- `to_parquet` into a partition directory: replaces a file with the same
name, otherwise adds a new file. -/
def writePartFile {ρ : Type} (files : List (PartFile ρ)) (f : PartFile ρ) :
    List (PartFile ρ) :=
  (files.filter (fun g => g.name ≠ f.name)) ++ [f]

/-- `_write_partitioned_parquet` of the quality stage (normalization.py,
lines 141-159), restricted to one target partition directory: it writes the
new part file and deletes nothing. -/
def normWritePartitionDir {ρ : Type} (existing : List (PartFile ρ))
    (f : PartFile ρ) : List (PartFile ρ) :=
  writePartFile existing f

/-- `_write_partitioned_parquet` of the derived stages (engine.py lines
174-195, regime.py lines 92-113, trend.py lines 91-112), restricted to one
target partition directory: under `upsert_latest` it first unlinks every
`*.parquet` file, then writes the one new part file. -/
def derivedWritePartitionDir {ρ : Type} (writeMode : String)
    (existing : List (PartFile ρ)) (f : PartFile ρ) : List (PartFile ρ) :=
  let remaining := if writeMode = "upsert_latest" then [] else existing
  writePartFile remaining f

/-- Cache-store read of one partition: concatenation of all part files, with
no deduplication. -/
def readPartitionRows {ρ : Type} (files : List (PartFile ρ)) : List ρ :=
  files.flatMap (fun f => f.rows)

/-! ## Indicator engine (`indicators/engine.py`) -/

/-- A cleaned-cache row as read by the indicator stage (the columns of
`REQUIRED_INPUT_COLUMNS` plus the freshness timestamp used by the dedup). -/
structure CleanedRow where
  symbol : String
  date : Option ℤ
  open_ : Option ℚ
  high : Option ℚ
  low : Option ℚ
  close : Option ℚ
  adj_close : Option ℚ
  volume : Option ℚ
  is_missing_bar : Option Bool
  pulled_at_utc : Option ℤ
deriving DecidableEq

def defaultCleanedRow : CleanedRow :=
  ⟨"", none, none, none, none, none, none, none, none, none⟩

/-- The `(symbol, date)` freshness-dedup key. -/
def cleanedKey (r : CleanedRow) : String × Option ℤ := (r.symbol, r.date)

/-- `sort_values(["symbol", "date", "pulled_at_utc"])` order: lexicographic,
nulls last per column. -/
def CleanedRowLe (a b : CleanedRow) : Prop :=
  (if a.symbol = b.symbol then
    (if a.date = b.date then optKeyLe a.pulled_at_utc b.pulled_at_utc
     else optKeyLt a.date b.date)
   else charListLt a.symbol.data b.symbol.data) = true

instance : DecidableRel CleanedRowLe := fun a b => by
  unfold CleanedRowLe; infer_instance

/-- `_dedupe_latest_rows` (engine.py, lines 161-171; textually identical to
`_dedupe_latest` in regime.py lines 63-73 and trend.py lines 69-79): sort by
`(symbol, date, pulled_at_utc)` and keep the last row of each
`(symbol, date)` key. -/
def dedupeLatestRows (rows : List CleanedRow) : List CleanedRow :=
  keepLastPerKey cleanedKey (List.insertionSort CleanedRowLe rows)

/-- `sort_values("date")` order inside one symbol group. -/
def DateLe (a b : CleanedRow) : Prop := optKeyLe a.date b.date = true

instance : DecidableRel DateLe := fun a b => by
  unfold DateLe; infer_instance

/-- `IndicatorConfig` (engine.py, lines 13-27): the indicator periods and the
volume-SMA toggle. -/
structure IndicatorConfig where
  sma200_period : ℕ := 200
  sma50_period : ℕ := 50
  ema20_period : ℕ := 20
  rsi14_period : ℕ := 14
  atr14_period : ℕ := 14
  rolling_high_period : ℕ := 20
  volume_sma50_period : ℕ := 50
  include_volume_sma50 : Bool := true
deriving DecidableEq

/-- The trailing window of width `w` ending at index `i`. -/
def windowAt (w : ℕ) (xs : List (Option ℚ)) (i : ℕ) : List (Option ℚ) :=
  (xs.take (i + 1)).drop (i + 1 - w)

/-- `rolling(w, min_periods=w).mean()` at index `i`: defined only when the
full window is available and has no null. -/
def rollingMeanAt (w : ℕ) (xs : List (Option ℚ)) (i : ℕ) : Option ℚ :=
  if i + 1 < w then none
  else if (windowAt w xs i).all (fun x => x.isSome) then
    some ((((windowAt w xs i).filterMap id).sum) / (w : ℚ))
  else none

def rollingMean (w : ℕ) (xs : List (Option ℚ)) : List (Option ℚ) :=
  (List.range xs.length).map (rollingMeanAt w xs)

/-- `rolling(w, min_periods=w).max()` at index `i`. -/
def rollingMaxAt (w : ℕ) (xs : List (Option ℚ)) (i : ℕ) : Option ℚ :=
  if i + 1 < w then none
  else if (windowAt w xs i).all (fun x => x.isSome) then
    ((windowAt w xs i).filterMap id).max?
  else none

def rollingMax (w : ℕ) (xs : List (Option ℚ)) : List (Option ℚ) :=
  (List.range xs.length).map (rollingMaxAt w xs)

/-- One step of `ewm(alpha, adjust=False, ignore_na=False)`: the state is the
weighted numerator/denominator pair; a null observation decays the weights of
the absolute-position scheme without contributing a value. -/
def ewmStep (alpha : ℚ) (st : Option (ℚ × ℚ)) (x : Option ℚ) : Option (ℚ × ℚ) :=
  match x, st with
  | some v, none => some (v, 1)
  | some v, some (num, den) => some ((1 - alpha) * num + alpha * v, (1 - alpha) * den + alpha)
  | none, some (num, den) => some ((1 - alpha) * num, (1 - alpha) * den)
  | none, none => none

/-- `ewm(alpha, min_periods, adjust=False).mean()` down a series: outputs are
masked to null until `minPeriods` non-null observations have been seen. -/
def ewmMeanAux (alpha : ℚ) (minPeriods : ℕ) :
    Option (ℚ × ℚ) → ℕ → List (Option ℚ) → List (Option ℚ)
  | _, _, [] => []
  | st, cnt, x :: rest =>
    let st2 := ewmStep alpha st x
    let cnt2 := if x.isSome then cnt + 1 else cnt
    let out : Option ℚ :=
      match st2 with
      | some (num, den) => if minPeriods ≤ cnt2 then some (num / den) else none
      | none => none
    out :: ewmMeanAux alpha minPeriods st2 cnt2 rest

def ewmMean (alpha : ℚ) (minPeriods : ℕ) (xs : List (Option ℚ)) : List (Option ℚ) :=
  ewmMeanAux alpha minPeriods none 0 xs

/-- `Series.shift(1)`. -/
def shift1 (xs : List (Option ℚ)) : List (Option ℚ) :=
  match xs with
  | [] => []
  | _ :: _ => none :: xs.dropLast

/-- `Series.diff()`: null wherever either side is null (index 0 always). -/
def diffOpt (xs : List (Option ℚ)) : List (Option ℚ) :=
  (xs.zip (shift1 xs)).map (fun p =>
    match p.1, p.2 with
    | some a, some b => some (a - b)
    | _, _ => none)

/-- `_wilder_rsi` (engine.py, lines 80-90): Wilder-smoothed average gain and
loss with `alpha = 1/period, min_periods=period, adjust=False`;
`rsi = 100 - 100/(1+rs)` with a zero average loss replaced by null in `rs`
and the final `where(avg_loss != 0, 100.0)` forcing RSI to 100 there. -/
def wilderRsi (xs : List (Option ℚ)) (period : ℕ) : List (Option ℚ) :=
  let delta := diffOpt xs
  let gain := delta.map (fun d => d.map (fun x => max x 0))
  let loss := delta.map (fun d => d.map (fun x => max (-x) 0))
  let avg_gain := ewmMean (1 / (period : ℚ)) period gain
  let avg_loss := ewmMean (1 / (period : ℚ)) period loss
  (List.range xs.length).map (fun i =>
    match avg_loss.getD i none, avg_gain.getD i none with
    | some l, some g => if l = 0 then some 100 else some (100 - 100 / (1 + g / l))
    | some l, none => if l = 0 then some 100 else none
    | _, _ => none)

/-- The true range: row-wise max (NaN-skipping) of `|adj_high - adj_low|`,
`|adj_high - prev_close|`, `|adj_low - prev_close|`. -/
def trueRangeAt (adjHigh adjLow prevClose : Option ℚ) : Option ℚ :=
  optMax3
    (match adjHigh, adjLow with
     | some h, some l => some |h - l|
     | _, _ => none)
    (match adjHigh, prevClose with
     | some h, some p => some |h - p|
     | _, _ => none)
    (match adjLow, prevClose with
     | some l, some p => some |l - p|
     | _, _ => none)

/-- `_wilder_atr` (engine.py, lines 93-104). -/
def wilderAtr (adjHigh adjLow adjClose : List (Option ℚ)) (period : ℕ) :
    List (Option ℚ) :=
  let prev := shift1 adjClose
  let tr := (List.range adjClose.length).map (fun i =>
    trueRangeAt (adjHigh.getD i none) (adjLow.getD i none) (prev.getD i none))
  ewmMean (1 / (period : ℚ)) period tr

/-- The adjustment ratio `adj_close / close.replace(0, nan)` with
`replace([inf, -inf], nan).fillna(1.0)` (engine.py, lines 109-110);
the float infinities cannot arise over `ℚ` once the zero is guarded. -/
def ratioOf (r : CleanedRow) : ℚ :=
  match r.adj_close, r.close with
  | some a, some c => if c = 0 then 1 else a / c
  | _, _ => 1

def adjCloseCol (ordered : List CleanedRow) : List (Option ℚ) :=
  ordered.map (fun r => r.adj_close)

def adjHighCol (ordered : List CleanedRow) : List (Option ℚ) :=
  ordered.map (fun r => r.high.map (fun h => h * ratioOf r))

def adjLowCol (ordered : List CleanedRow) : List (Option ℚ) :=
  ordered.map (fun r => r.low.map (fun x => x * ratioOf r))

def volumeCol (ordered : List CleanedRow) : List (Option ℚ) :=
  ordered.map (fun r => r.volume)

/-- A feature row produced by `_compute_symbol_indicators`. -/
structure FeatRow where
  symbol : String
  date : Option ℤ
  open_ : Option ℚ
  high : Option ℚ
  low : Option ℚ
  close : Option ℚ
  adj_close : Option ℚ
  volume : Option ℚ
  is_missing_bar : Option Bool
  pulled_at_utc : Option ℤ
  adj_high : Option ℚ
  adj_low : Option ℚ
  sma200 : Option ℚ
  sma50 : Option ℚ
  ema20 : Option ℚ
  rsi14 : Option ℚ
  atr14 : Option ℚ
  rolling_high_20 : Option ℚ
  volume_sma50 : Option ℚ
  indicator_ready : Bool
deriving DecidableEq

/-- Row `i` of `_compute_symbol_indicators` (engine.py, lines 107-158) on the
date-sorted group `ordered`: the indicator columns with full-window warm-up,
`indicator_ready` as the non-nullity of every enabled readiness column, then
the missing-bar masking that forces all seven indicator columns to null and
`indicator_ready` to false. -/
def featRowAt (cfg : IndicatorConfig) (ordered : List CleanedRow) (i : ℕ) : FeatRow :=
  let r := ordered.getD i defaultCleanedRow
  let s200 := (rollingMean cfg.sma200_period (adjCloseCol ordered)).getD i none
  let s50 := (rollingMean cfg.sma50_period (adjCloseCol ordered)).getD i none
  let e20 := (ewmMean (2 / ((cfg.ema20_period : ℚ) + 1)) cfg.ema20_period
    (adjCloseCol ordered)).getD i none
  let rs := (wilderRsi (adjCloseCol ordered) cfg.rsi14_period).getD i none
  let at14 := (wilderAtr (adjHighCol ordered) (adjLowCol ordered) (adjCloseCol ordered)
    cfg.atr14_period).getD i none
  let rh := (rollingMax cfg.rolling_high_period (adjHighCol ordered)).getD i none
  let vs :=
    if cfg.include_volume_sma50 then
      (rollingMean cfg.volume_sma50_period (volumeCol ordered)).getD i none
    else none
  let ready0 := s200.isSome && s50.isSome && e20.isSome && rs.isSome && at14.isSome
    && rh.isSome && (if cfg.include_volume_sma50 then vs.isSome else true)
  let missing := r.is_missing_bar.getD false
  { symbol := r.symbol, date := r.date, open_ := r.open_, high := r.high, low := r.low,
    close := r.close, adj_close := r.adj_close, volume := r.volume,
    is_missing_bar := r.is_missing_bar, pulled_at_utc := r.pulled_at_utc,
    adj_high := r.high.map (fun h => h * ratioOf r),
    adj_low := r.low.map (fun x => x * ratioOf r),
    sma200 := if missing then none else s200,
    sma50 := if missing then none else s50,
    ema20 := if missing then none else e20,
    rsi14 := if missing then none else rs,
    atr14 := if missing then none else at14,
    rolling_high_20 := if missing then none else rh,
    volume_sma50 := if missing then none else vs,
    indicator_ready := if missing then false else ready0 }

def defaultFeatRow : FeatRow :=
  ⟨"", none, none, none, none, none, none, none, none, none, none, none, none,
    none, none, none, none, none, none, false⟩

/-- `_compute_symbol_indicators` (engine.py, lines 107-158) on one symbol
group. -/
def computeSymbolIndicators (cfg : IndicatorConfig) (rows : List CleanedRow) :
    List FeatRow :=
  let ordered := List.insertionSort DateLe rows
  (List.range ordered.length).map (featRowAt cfg ordered)

/-! ## Regime filter (`signals/regime.py`) -/

/-- A feature-cache row as read by the regime filter (its
`REQUIRED_COLUMNS` plus the freshness timestamp used by `_dedupe_latest`). -/
structure RegimeSrcRow where
  symbol : String
  date : Option ℤ
  adj_close : Option ℚ
  sma200 : Option ℚ
  pulled_at_utc : Option ℤ
deriving DecidableEq

/-- The `(symbol, date)` dedup key. -/
def regimeKey (r : RegimeSrcRow) : String × Option ℤ := (r.symbol, r.date)

/-- `sort_values(["symbol", "date", "pulled_at_utc"])` order for the regime
filter's `_dedupe_latest`. -/
def RegimeRowLe (a b : RegimeSrcRow) : Prop :=
  (if a.symbol = b.symbol then
    (if a.date = b.date then optKeyLe a.pulled_at_utc b.pulled_at_utc
     else optKeyLt a.date b.date)
   else charListLt a.symbol.data b.symbol.data) = true

instance : DecidableRel RegimeRowLe := fun a b => by
  unfold RegimeRowLe; infer_instance

/-- `_dedupe_latest` (regime.py, lines 63-73). -/
def regimeDedupeLatest (rows : List RegimeSrcRow) : List RegimeSrcRow :=
  keepLastPerKey regimeKey (List.insertionSort RegimeRowLe rows)

/-- One row of the benchmark regime table. -/
structure RegimeEntry where
  date : Option ℤ
  regime_on : Bool
  regime_known : Bool
  benchmark_adj_close : Option ℚ
  benchmark_sma200 : Option ℚ
deriving DecidableEq

/-- `_build_regime_table` (regime.py, lines 76-89): select the benchmark
symbol's rows, fail if none, and compute
`regime_known = adj_close.notna() & sma200.notna()`,
`regime_on = regime_known & (adj_close > sma200)`. -/
def buildRegimeTable (features : List RegimeSrcRow) (benchmark_symbol : String) :
    Except String (List RegimeEntry) :=
  let benchmark := features.filter (fun r => decide (r.symbol = benchmark_symbol))
  if benchmark.isEmpty then
    .error ("Benchmark symbol " ++ benchmark_symbol ++ " not found in feature cache.")
  else
    .ok (benchmark.map (fun r =>
      { date := r.date
        regime_known := r.adj_close.isSome && r.sma200.isSome
        regime_on := (r.adj_close.isSome && r.sma200.isSome) && optGt r.adj_close r.sma200
        benchmark_adj_close := r.adj_close
        benchmark_sma200 := r.sma200 }))

/-- A regime-annotated output row. -/
structure RegimeOutRow where
  row : RegimeSrcRow
  regime_known : Bool
  regime_on : Bool
  benchmark_adj_close : Option ℚ
  benchmark_sma200 : Option ℚ
  regime_benchmark_symbol : String
deriving DecidableEq

/-- `target.merge(regime_table, on="date", how="left")` followed by the
boolean fills and the benchmark-symbol column (regime.py, lines 167-170):
unmatched dates get `regime_known = regime_on = false`, never null. -/
def mergeRegime (target : List RegimeSrcRow) (table : List RegimeEntry)
    (benchmark_symbol : String) : List RegimeOutRow :=
  target.flatMap (fun t =>
    match table.filter (fun e => decide (e.date = t.date)) with
    | [] => [{ row := t, regime_known := false, regime_on := false,
               benchmark_adj_close := none, benchmark_sma200 := none,
               regime_benchmark_symbol := benchmark_symbol }]
    | ms => ms.map (fun e =>
        { row := t, regime_known := e.regime_known, regime_on := e.regime_on,
          benchmark_adj_close := e.benchmark_adj_close,
          benchmark_sma200 := e.benchmark_sma200,
          regime_benchmark_symbol := benchmark_symbol }))

/-- The pure row pipeline of `apply_market_regime_filter` (regime.py, lines
163-170): freshness-dedup, benchmark regime table, restriction to the
requested symbols, left join by date alone. -/
def applyMarketRegimeFilterCore (features : List RegimeSrcRow)
    (requested : List String) (benchmark_symbol : String) :
    Except String (List RegimeOutRow) :=
  let deduped := regimeDedupeLatest features
  match buildRegimeTable deduped benchmark_symbol with
  | .error e => .error e
  | .ok table =>
    let target := deduped.filter (fun r => decide (r.symbol ∈ requested))
    .ok (mergeRegime target table benchmark_symbol)

/-! ## Ingestion (`data/ibkr_ingestion.py`) -/

/-- A raw broker bar (`_bars_to_frame` input; absent cells are `none`, an
absent volume defaults to 0 downstream). -/
structure Bar where
  date : Option ℤ
  open_ : Option ℚ
  high : Option ℚ
  low : Option ℚ
  close : Option ℚ
  volume : Option ℚ
deriving DecidableEq

/-- A row of the frame produced by `_bars_to_frame`: date and prices are
non-null (rows with nulls were dropped), volume is an int64. -/
structure RawRow where
  date : ℤ
  open_ : ℚ
  high : ℚ
  low : ℚ
  close : ℚ
  volume : ℤ
deriving DecidableEq

def RawDateLe (a b : RawRow) : Prop := a.date ≤ b.date

instance : DecidableRel RawDateLe := fun a b => by
  unfold RawDateLe; infer_instance

/-- `_bars_to_frame` (ibkr_ingestion.py, lines 66-98): coerce, default the
volume to 0, drop rows with a null date or price, sort by date. -/
def barsToFrame (bars : List Bar) : List RawRow :=
  let records := bars.filterMap (fun b =>
    match b.date, b.open_, b.high, b.low, b.close with
    | some d, some o, some h, some l, some c =>
        some ({ date := d, open_ := o, high := h, low := l, close := c,
                volume := ratTrunc ((b.volume).getD 0) } : RawRow)
    | _, _, _, _, _ => none)
  List.insertionSort RawDateLe records

def defaultRawRow : RawRow := ⟨0, 0, 0, 0, 0, 0⟩

/-- A normalized output row of `_build_symbol_frames`. -/
structure NormalizedOut where
  symbol : String
  date : ℤ
  open_ : ℚ
  high : ℚ
  low : ℚ
  close : ℚ
  volume : ℤ
  adj_close : ℚ
  adjustment_factor : ℚ
  adjustment_method : String
deriving DecidableEq

def defaultNormalizedOut : NormalizedOut := ⟨"", 0, 0, 0, 0, 0, 0, 0, 1, "none"⟩

/-- The merged `(close, adj_close_candidate)` pairs of
`raw_df[["date","close"]].merge(adj_df[...], on="date", how="left")`
(ibkr_ingestion.py, lines 161-165): one pair per match, the no-match pair
carrying a null candidate. -/
def candidatesFor (raw adj : List RawRow) : List (ℚ × Option ℚ) :=
  raw.flatMap (fun r =>
    let ms := adj.filter (fun m => decide (m.date = r.date))
    if ms.isEmpty then [(r.close, none)]
    else ms.map (fun m => (r.close, some m.close)))

/-- A normalized row in the fallback (no adjusted series) branches:
`adj_close = close`, factor 1.0, method `none`. -/
def normRowDefault (symbol : String) (r : RawRow) : NormalizedOut :=
  { symbol := symbol, date := r.date, open_ := r.open_, high := r.high, low := r.low,
    close := r.close, volume := r.volume, adj_close := r.close,
    adjustment_factor := 1, adjustment_method := "none" }

/-- A normalized row in the adjusted branch:
`adj_close = candidate.fillna(close)` and
`factor = (adj_close / close.replace(0, NA)).replace(inf, NA).fillna(1.0)`
(the float infinities cannot arise over `ℚ` once the zero is guarded). -/
def normRowAdjusted (symbol : String) (r : RawRow) (mc : ℚ) (cand : Option ℚ) :
    NormalizedOut :=
  { symbol := symbol, date := r.date, open_ := r.open_, high := r.high, low := r.low,
    close := r.close, volume := r.volume, adj_close := cand.getD mc,
    adjustment_factor := if mc = 0 then 1 else (cand.getD mc) / mc,
    adjustment_method := "ibkr_adjusted_last_factor" }

/-- The pure core of `_build_symbol_frames` (ibkr_ingestion.py, lines
132-210), given the raw bars and the outcome of the adjusted-bars request:
empty raw bars fail the symbol; a failed or empty or unmatched adjusted
stream falls back to `adj_close = close` with one warning; otherwise the
factor column is computed per merged row. -/
def buildSymbolFramesCore (symbol : String) (rawBars : List Bar)
    (adjResult : Except String (List Bar)) :
    Except String (List NormalizedOut × String × List String) :=
  let raw_df := barsToFrame rawBars
  if raw_df.isEmpty then
    .error ("No raw bars returned for symbol " ++ symbol)
  else
    match adjResult with
    | .error e =>
      .ok (raw_df.map (normRowDefault symbol), "none",
        ["Adjusted close request failed for " ++ symbol ++
          "; using close as adj_close. Error: " ++ e])
    | .ok adjBars =>
      let adj_df := barsToFrame adjBars
      if adj_df.isEmpty then
        .ok (raw_df.map (normRowDefault symbol), "none",
          ["No ADJUSTED_LAST bars available for " ++ symbol ++
            "; using close as adj_close."])
      else
        let merged := candidatesFor raw_df adj_df
        if merged.any (fun p => p.2.isSome) then
          .ok ((List.range raw_df.length).map (fun i =>
              normRowAdjusted symbol (raw_df.getD i defaultRawRow)
                (merged.getD i (0, none)).1 (merged.getD i (0, none)).2),
            "ibkr_adjusted_last_factor", [])
        else
          .ok (raw_df.map (normRowDefault symbol), "none",
            ["No adjusted close values available for " ++ symbol ++
              "; using close as adj_close."])

/-- The retry loop of `_request_bars_with_retries` (ibkr_ingestion.py, lines
101-129): `f` is the client's behavior on the successive attempts, `fuel`
counts the remaining iterations of `for attempt in range(max_retries)` (so
the budget is exhausted, and the last error re-raised, exactly when the
fuel runs out), and the second result component counts the fixed-delay
sleeps taken between attempts. -/
def retryGo (f : ℕ → Except String (List Bar)) :
    ℕ → ℕ → Option String → ℕ → Except String (List Bar) × ℕ
  | 0, _, lastError, sleeps =>
    (match lastError with
     | some e => (.error e, sleeps)
     | none => (.ok [], sleeps))
  | fuel + 1, attempt, _, sleeps =>
    (match f attempt with
     | .ok bars => (.ok bars, sleeps)
     | .error e =>
       if fuel = 0 then (.error e, sleeps)
       else retryGo f fuel (attempt + 1) (some e) (sleeps + 1))

/-- `_request_bars_with_retries` (ibkr_ingestion.py, lines 101-129). -/
def requestBarsWithRetries (f : ℕ → Except String (List Bar)) (maxRetries : ℕ) :
    Except String (List Bar) × ℕ :=
  retryGo f maxRetries 0 none 0

/-- A per-symbol success record (`SymbolIngestionResult`, the fields the
claims talk about). -/
structure SymbolResult where
  symbol : String
  row_count : ℕ
  adjustment_method : String
  warnings : List String
deriving DecidableEq

/-- The run result plus the always-written metadata report
(`IngestionRunResult` + `_write_run_metadata`). -/
structure IngestionRun where
  symbols_requested : ℕ
  symbols_succeeded : ℕ
  symbols_failed : ℕ
  results : List SymbolResult
  failures : List (String × String)
  metadata_written : Bool
deriving DecidableEq

/-- `failures[symbol] = str(exc)`: python-dict insertion (overwrite keeps the
key's position, a new key is appended). -/
def insertFailure (fs : List (String × String)) (sym msg : String) :
    List (String × String) :=
  if fs.any (fun p => p.1 = sym) then
    fs.map (fun p => if p.1 = sym then (sym, msg) else p)
  else fs ++ [(sym, msg)]

/-- One symbol's processing inside `ingest_daily_bars` (ibkr_ingestion.py,
lines 294-322): raw request with retries (failure propagates), then
`_build_symbol_frames` with the adjusted request's outcome; `client sym what`
gives the broker's response per attempt. -/
def processSymbol (client : String → String → ℕ → Except String (List Bar))
    (maxRetries : ℕ) (symbol : String) : Except String SymbolResult :=
  match (requestBarsWithRetries (client symbol "TRADES") maxRetries).1 with
  | .error e => .error e
  | .ok rawBars =>
    match buildSymbolFramesCore symbol rawBars
        (requestBarsWithRetries (client symbol "ADJUSTED_LAST") maxRetries).1 with
    | .error e => .error e
    | .ok (rows, method, warns) =>
      .ok { symbol := symbol, row_count := rows.length,
            adjustment_method := method, warnings := warns }

/-- The normalized requested-symbol list of `ingest_daily_bars` (line 281):
non-blank symbols, normalized, not deduplicated. -/
def requestedOfIngest (symbols : List String) : List String :=
  (symbols.filter (fun s => trimChars s.data ≠ [])).map normalizeSymbol

/-- The per-symbol accumulator step of the ingestion loop: a success is
appended to `results`, an exception becomes `failures[symbol]`. -/
def ingestStep (client : String → String → ℕ → Except String (List Bar))
    (maxRetries : ℕ) (acc : List SymbolResult × List (String × String))
    (sym : String) : List SymbolResult × List (String × String) :=
  match processSymbol client maxRetries sym with
  | .ok res => (acc.1 ++ [res], acc.2)
  | .error e => (acc.1, insertFailure acc.2 sym e)

/-- `ingest_daily_bars` (ibkr_ingestion.py, lines 272-355), pure core: the
symbols are processed in order (batching only groups the same sequence), the
loop never aborts, and the run result and metadata report are always
produced with `symbols_succeeded = len(results)`,
`symbols_failed = len(failures)`. -/
def ingestDailyBarsCore (client : String → String → ℕ → Except String (List Bar))
    (symbols : List String) (maxRetries : ℕ) : IngestionRun :=
  let requested := requestedOfIngest symbols
  let acc := requested.foldl (ingestStep client maxRetries) ([], [])
  { symbols_requested := requested.length, symbols_succeeded := acc.1.length,
    symbols_failed := acc.2.length, results := acc.1, failures := acc.2,
    metadata_written := true }

/-! ## Trend filter (`signals/trend.py`) -/

/-- A deduplicated source row as consumed by `_apply_trend_flags`
(columns required by the trend filter). -/
structure TrendRow where
  symbol : String
  date : Option ℤ
  adj_close : Option ℚ
  sma200 : Option ℚ
  sma50 : Option ℚ
deriving DecidableEq

/-- A trend-flagged output row. -/
structure TrendOut where
  row : TrendRow
  trend_known : Bool
  trend_eligible : Bool
deriving DecidableEq

/-- `_apply_trend_flags` (trend.py, lines 82-88): `trend_known` is non-nullity
of `adj_close`, `sma200`, `sma50`; `trend_eligible` additionally requires the
two strict pandas comparisons. -/
def applyTrendFlags (rows : List TrendRow) : List TrendOut :=
  rows.map fun r =>
    { row := r
      trend_known := r.adj_close.isSome && r.sma200.isSome && r.sma50.isSome
      trend_eligible :=
        (r.adj_close.isSome && r.sma200.isSome && r.sma50.isSome)
          && optGt r.adj_close r.sma200 && optGt r.sma50 r.sma200 }

end CrossRegimeAlpha

namespace CrossRegimeAlpha

theorem keepLastPerKey_subset {α κ : Type} [DecidableEq κ] (key : α → κ)
    (l : List α) : ∀ x ∈ keepLastPerKey key l, x ∈ l := by
  induction l with
  | nil => simp [keepLastPerKey]
  | cons a t ih =>
    intro x hx
    by_cases h : t.any (fun y => key y = key a)
    · simp only [keepLastPerKey, if_pos h] at hx
      exact List.mem_cons_of_mem _ (ih x hx)
    · simp only [keepLastPerKey, if_neg h, List.mem_cons] at hx
      rcases hx with rfl | hx
      · exact List.mem_cons_self _ _
      · exact List.mem_cons_of_mem _ (ih x hx)

/-- Each key that occurs in the input still occurs after `keepLastPerKey`. -/
theorem keepLastPerKey_key_mem {α κ : Type} [DecidableEq κ] (key : α → κ)
    (l : List α) : ∀ x ∈ l, ∃ y ∈ keepLastPerKey key l, key y = key x := by
  induction l with
  | nil => simp
  | cons a t ih =>
    intro x hx
    by_cases h : t.any (fun y => key y = key a)
    · simp only [keepLastPerKey, if_pos h]
      rcases List.mem_cons.1 hx with hxa | hx'
      · rcases List.any_eq_true.1 h with ⟨y, hy, hky⟩
        rcases ih y hy with ⟨z, hz, hkz⟩
        refine ⟨z, hz, hkz.trans ?_⟩
        rw [hxa]
        simpa using hky
      · exact ih x hx'
    · simp only [keepLastPerKey, if_neg h]
      rcases List.mem_cons.1 hx with hxa | hx'
      · exact ⟨a, List.mem_cons_self _ _, by rw [hxa]⟩
      · rcases ih x hx' with ⟨z, hz, hkz⟩
        exact ⟨z, List.mem_cons_of_mem _ hz, hkz⟩

/-- After `keepLastPerKey` the keys are pairwise distinct. -/
theorem keepLastPerKey_nodup_keys {α κ : Type} [DecidableEq κ] (key : α → κ)
    (l : List α) : (keepLastPerKey key l).Pairwise (fun x y => key x ≠ key y) := by
  induction l with
  | nil => simp [keepLastPerKey]
  | cons a t ih =>
    by_cases h : t.any (fun y => key y = key a)
    · simpa only [keepLastPerKey, if_pos h] using ih
    · simp only [keepLastPerKey, if_neg h]
      refine List.Pairwise.cons ?_ ih
      intro y hy hkey
      have hyt := keepLastPerKey_subset key t y hy
      have : t.any (fun x => key x = key a) :=
        List.any_eq_true.2 ⟨y, hyt, by simpa using hkey.symm⟩
      exact h this

/-- If the list decomposes at an occurrence of `r` after which no row shares
its key, that occurrence is kept. -/
theorem keepLastPerKey_mem_of_last {α κ : Type} [DecidableEq κ] (key : α → κ)
    (l₁ l₂ : List α) (r : α) (h : ∀ y ∈ l₂, key y ≠ key r) :
    r ∈ keepLastPerKey key (l₁ ++ r :: l₂) := by
  induction l₁ with
  | nil =>
    have hany : (l₂.any (fun x => key x = key r)) = false := by
      simp only [List.any_eq_false]
      intro y hy
      simpa using h y hy
    simp [keepLastPerKey, hany]
  | cons a t ih =>
    rw [List.cons_append]
    by_cases hcase : ((t ++ r :: l₂).any (fun x => key x = key a)) = true
    · rw [keepLastPerKey, if_pos hcase]; exact ih
    · rw [keepLastPerKey, if_neg hcase]
      exact List.mem_cons_of_mem _ ih

/-- If every occurrence of `r` is followed by a row with the same key,
`r` is dropped. -/
theorem keepLastPerKey_not_mem {α κ : Type} [DecidableEq κ] (key : α → κ)
    (l : List α) (r : α)
    (h : ∀ l₁ l₂, l = l₁ ++ r :: l₂ → ∃ y ∈ l₂, key y = key r) :
    r ∉ keepLastPerKey key l := by
  induction l with
  | nil => simp [keepLastPerKey]
  | cons a t ih =>
    by_cases hcase : t.any (fun x => key x = key a)
    · simp only [keepLastPerKey, if_pos hcase]
      exact ih (fun l₁ l₂ hdec => h (a :: l₁) l₂ (by simp [hdec]))
    · simp only [keepLastPerKey, if_neg hcase, List.mem_cons]
      rintro (rfl | hr)
      · rcases h [] t rfl with ⟨y, hy, hky⟩
        exact absurd (List.any_eq_true.2 ⟨y, hy, by simpa using hky⟩) hcase
      · exact ih (fun l₁ l₂ hdec => h (a :: l₁) l₂ (by simp [hdec])) hr

theorem mem_sortedDedupInts {l : List ℤ} {x : ℤ} :
    x ∈ sortedDedupInts l ↔ x ∈ l := by
  unfold sortedDedupInts
  rw [List.mem_insertionSort, List.mem_dedup]

theorem nodup_sortedDedupInts (l : List ℤ) : (sortedDedupInts l).Nodup :=
  (List.perm_insertionSort _ _).symm.nodup l.nodup_dedup

theorem mem_sortedDedupStrings {l : List String} {x : String} :
    x ∈ sortedDedupStrings l ↔ x ∈ l := by
  unfold sortedDedupStrings
  rw [List.mem_insertionSort, List.mem_dedup]

theorem nodup_sortedDedupStrings (l : List String) : (sortedDedupStrings l).Nodup :=
  (List.perm_insertionSort _ _).symm.nodup l.nodup_dedup

theorem length_filter_not_add {α : Type} (p : α → Bool) (l : List α) :
    (l.filter (fun a => !p a)).length + (l.filter p).length = l.length := by
  induction l with
  | nil => rfl
  | cons a t ih =>
    by_cases h : p a = true <;> simp [List.filter_cons, h] <;> omega

/-- C6: membership form of the trend-flag semantics. -/
theorem applyTrendFlags_spec (rows : List TrendRow) (out : TrendOut)
    (hmem : out ∈ applyTrendFlags rows) :
    (out.trend_known = true ↔
      out.row.adj_close.isSome ∧ out.row.sma200.isSome ∧ out.row.sma50.isSome) ∧
    (out.trend_eligible = true ↔
      ∃ a s200 s50 : ℚ, out.row.adj_close = some a ∧ out.row.sma200 = some s200 ∧
        out.row.sma50 = some s50 ∧ s200 < a ∧ s200 < s50) := by
  rcases List.mem_map.1 hmem with ⟨r, -, rfl⟩
  dsimp only
  constructor
  · simp [and_assoc]
  · cases ha : r.adj_close <;> cases h200 : r.sma200 <;> cases h50 : r.sma50 <;>
      simp [optGt, ha, h200, h50, and_assoc]

end CrossRegimeAlpha

namespace CrossRegimeAlpha

/-- C6: for every row processed by the trend filter, `trend_known` holds iff
`adj_close`, `sma200` and `sma50` are all non-null, and `trend_eligible` holds
iff additionally `adj_close > sma200` and `sma50 > sma200`, both strictly. -/
theorem trend_flags_correct (rows : List TrendRow) (out : TrendOut)
    (hmem : out ∈ applyTrendFlags rows) :
    (out.trend_known = true ↔
      out.row.adj_close.isSome ∧ out.row.sma200.isSome ∧ out.row.sma50.isSome) ∧
    (out.trend_eligible = true ↔
      ∃ a s200 s50 : ℚ, out.row.adj_close = some a ∧ out.row.sma200 = some s200 ∧
        out.row.sma50 = some s50 ∧ s200 < a ∧ s200 < s50) :=
  applyTrendFlags_spec rows out hmem

/-- C6 witness: the spec's two example rows.  `(105, 100, 101)` is eligible;
`(100, 100, 101)` is known but not eligible because `adj_close = sma200` is
not strictly above. -/
theorem trend_flags_correct_witness :
    (({ row := ⟨"AAPL", some 0, some 105, some 100, some 101⟩, trend_known := true,
        trend_eligible := true } : TrendOut).trend_eligible = true) ∧
    (({ row := ⟨"AAPL", some 1, some 100, some 100, some 101⟩, trend_known := true,
        trend_eligible := false } : TrendOut).trend_eligible = false) := by
  constructor
  · exact (trend_flags_correct
      [⟨"AAPL", some 0, some 105, some 100, some 101⟩]
      { row := ⟨"AAPL", some 0, some 105, some 100, some 101⟩, trend_known := true,
        trend_eligible := true } (by decide)).2.mpr
      ⟨105, 100, 101, rfl, rfl, rfl, by norm_num, by norm_num⟩
  · have h := (trend_flags_correct
      [⟨"AAPL", some 1, some 100, some 100, some 101⟩]
      { row := ⟨"AAPL", some 1, some 100, some 100, some 101⟩, trend_known := true,
        trend_eligible := false } (by decide)).2
    by_contra hc
    rcases h.mp (by revert hc; decide) with ⟨a, s200, s50, ha, h200, h50, hgt, -⟩
    cases ha; cases h200
    exact lt_irrefl _ hgt

/-- C9: a row survives `_remove_invalid_rows` iff every required field is
non-null, all five prices are strictly positive, volume is non-negative,
`high >= max(open, close, low)` and `low <= min(open, close, high)`; invalid
rows are dropped (the survivors are source rows, up to the int64 volume cast)
and the dropped count accounts for every removed row. -/
theorem remove_invalid_rows_correct (rows : List NormRow) (r : NormRow) :
    (validRow r = true ↔ ∃ (d : ℤ) (o h l c ac v : ℚ),
      r.date = some d ∧ r.open_ = some o ∧ r.high = some h ∧ r.low = some l ∧
      r.close = some c ∧ r.adj_close = some ac ∧ r.volume = some v ∧
      0 < o ∧ 0 < h ∧ 0 < l ∧ 0 < c ∧ 0 < ac ∧ 0 ≤ v ∧
      max (max o c) l ≤ h ∧ l ≤ min (min o c) h) ∧
    (∀ x ∈ (removeInvalidRows rows).1, ∃ src ∈ rows, validRow src = true ∧
      x = { src with volume := src.volume.map (fun v => ((ratTrunc v : ℤ) : ℚ)) }) ∧
    (removeInvalidRows rows).2 + (rows.filter validRow).length = rows.length := by
  refine ⟨⟨?_, ?_⟩, ?_, ?_⟩
  · intro hv
    simp only [validRow, Bool.and_eq_true] at hv
    obtain ⟨⟨⟨⟨hns, hpos⟩, hvol⟩, hhigh⟩, hlow⟩ := hv
    obtain ⟨⟨⟨⟨⟨⟨hd, ho⟩, hh⟩, hl⟩, hc⟩, hac⟩, hvs⟩ := hns
    rcases Option.isSome_iff_exists.1 hd with ⟨d, hd⟩
    rcases Option.isSome_iff_exists.1 ho with ⟨o, ho⟩
    rcases Option.isSome_iff_exists.1 hh with ⟨h, hh⟩
    rcases Option.isSome_iff_exists.1 hl with ⟨l, hl⟩
    rcases Option.isSome_iff_exists.1 hc with ⟨c, hc⟩
    rcases Option.isSome_iff_exists.1 hac with ⟨ac, hac⟩
    rcases Option.isSome_iff_exists.1 hvs with ⟨v, hvs⟩
    simp only [ho, hh, hl, hc, hac, hvs, optGt, optGe, optLeB, optMax3, optMax2,
      optMin3, optMin2, Bool.and_eq_true, decide_eq_true_eq] at hpos hvol hhigh hlow
    exact ⟨d, o, h, l, c, ac, v, hd, ho, hh, hl, hc, hac, hvs,
      hpos.1.1.1.1, hpos.1.1.1.2, hpos.1.1.2, hpos.1.2, hpos.2, hvol, hhigh, hlow⟩
  · rintro ⟨d, o, h, l, c, ac, v, hd, ho, hh, hl, hc, hac, hv, po, ph, pl, pc, pac,
      pv, hHigh, hLow⟩
    simp [validRow, hd, ho, hh, hl, hc, hac, hv, optGt, optGe, optLeB, optMax3,
      optMax2, optMin3, optMin2, po, ph, pl, pc, pac, pv, hHigh, hLow]
  · intro x hx
    rcases List.mem_map.1 hx with ⟨src, hsrc, rfl⟩
    rcases List.mem_filter.1 hsrc with ⟨hmem, hvalid⟩
    exact ⟨src, hmem, hvalid, rfl⟩
  · exact length_filter_not_add validRow rows

/-- C9 witness: a concrete well-formed row is kept (via the iff), and on a
two-row input with one invalid row the dropped count is `1`. -/
theorem remove_invalid_rows_correct_witness :
    validRow ⟨"SPY", some 0, some 99, some 101, some 98, some 100, some 100, some 1000⟩ = true ∧
    ((removeInvalidRows
      [⟨"SPY", some 0, some 99, some 101, some 98, some 100, some 100, some 1000⟩,
       ⟨"SPY", some 1, some 99, some 101, some 98, some (-1), some 100, some 1000⟩]).2 +
      (([⟨"SPY", some 0, some 99, some 101, some 98, some 100, some 100, some 1000⟩,
         ⟨"SPY", some 1, some 99, some 101, some 98, some (-1), some 100, some 1000⟩] :
        List NormRow).filter validRow).length = 2) := by
  constructor
  · exact (remove_invalid_rows_correct [] _).1.mpr
      ⟨0, 99, 101, 98, 100, 100, 1000, rfl, rfl, rfl, rfl, rfl, rfl, rfl,
        by norm_num, by norm_num, by norm_num, by norm_num, by norm_num, by norm_num,
        by norm_num, by norm_num⟩
  · exact (remove_invalid_rows_correct
      [⟨"SPY", some 0, some 99, some 101, some 98, some 100, some 100, some 1000⟩,
       ⟨"SPY", some 1, some 99, some 101, some 98, some (-1), some 100, some 1000⟩]
      ⟨"SPY", some 0, some 99, some 101, some 98, some 100, some 100, some 1000⟩).2.2

/-- C1 counterexample: the quality stage's `_write_partitioned_parquet` does
not delete the existing part file of the target partition.  After a second
quality-stage write into a partition that already holds one part file the
old file is still there, the partition holds two part files instead of one,
and the store's read (plain concatenation) returns the rows twice. -/
theorem quality_write_no_upsert_counterexample :
    (normWritePartitionDir
        [⟨"part-20260301T000000.parquet",
          [(⟨"SPY", some 0, some 99, some 101, some 98, some 100, some 100,
            some 1000⟩ : NormRow)]⟩]
        ⟨"part-20260302T000000.parquet",
          [⟨"SPY", some 0, some 99, some 101, some 98, some 100, some 100,
            some 1000⟩]⟩ ≠
      [⟨"part-20260302T000000.parquet",
        [⟨"SPY", some 0, some 99, some 101, some 98, some 100, some 100,
          some 1000⟩]⟩]) ∧
    (⟨"part-20260301T000000.parquet",
      [(⟨"SPY", some 0, some 99, some 101, some 98, some 100, some 100,
        some 1000⟩ : NormRow)]⟩ : PartFile NormRow) ∈
      normWritePartitionDir
        [⟨"part-20260301T000000.parquet",
          [⟨"SPY", some 0, some 99, some 101, some 98, some 100, some 100,
            some 1000⟩]⟩]
        ⟨"part-20260302T000000.parquet",
          [⟨"SPY", some 0, some 99, some 101, some 98, some 100, some 100,
            some 1000⟩]⟩ ∧
    (normWritePartitionDir
        [⟨"part-20260301T000000.parquet",
          [(⟨"SPY", some 0, some 99, some 101, some 98, some 100, some 100,
            some 1000⟩ : NormRow)]⟩]
        ⟨"part-20260302T000000.parquet",
          [⟨"SPY", some 0, some 99, some 101, some 98, some 100, some 100,
            some 1000⟩]⟩).length = 2 := by
  refine ⟨?_, ?_, ?_⟩ <;> decide

/-- C1 amended: the feature and signal stages' `_write_partitioned_parquet`
under `upsert_latest` deletes every existing part file of the target
partition and writes exactly one new part file, so a rerun leaves the
partition holding exactly the latest generation; the quality stage's writer
deletes nothing — it appends a new part file (replacing only a file with the
identical timestamped name). -/
theorem partition_write_modes_correct {ρ : Type} (existing : List (PartFile ρ))
    (f f₂ : PartFile ρ) :
    derivedWritePartitionDir "upsert_latest" existing f = [f] ∧
    readPartitionRows
      (derivedWritePartitionDir "upsert_latest"
        (derivedWritePartitionDir "upsert_latest" existing f) f₂) = f₂.rows ∧
    (∀ g ∈ existing, g.name ≠ f.name → g ∈ normWritePartitionDir existing f) ∧
    f ∈ normWritePartitionDir existing f := by
  refine ⟨?_, ?_, ?_, ?_⟩
  · simp [derivedWritePartitionDir, writePartFile]
  · simp [derivedWritePartitionDir, writePartFile, readPartitionRows]
  · intro g hg hne
    exact List.mem_append_left _ (List.mem_filter.2 ⟨hg, by simpa using hne⟩)
  · exact List.mem_append_right _ (List.mem_cons_self _ _)

/-- C1 amended witness: one existing part file with a different name survives
a quality-stage write, while a derived-stage upsert write replaces it. -/
theorem partition_write_modes_correct_witness :
    ((⟨"part-a", [(0 : ℤ)]⟩ : PartFile ℤ) ∈
      normWritePartitionDir [⟨"part-a", [0]⟩] ⟨"part-b", [1]⟩) ∧
    derivedWritePartitionDir "upsert_latest" [⟨"part-a", [(0 : ℤ)]⟩]
      ⟨"part-b", [1]⟩ = [⟨"part-b", [1]⟩] := by
  constructor
  · exact (partition_write_modes_correct [⟨"part-a", [0]⟩] ⟨"part-b", [1]⟩
      ⟨"part-b", [1]⟩).2.2.1 ⟨"part-a", [0]⟩ (List.mem_singleton.2 rfl) (by decide)
  · exact (partition_write_modes_correct [⟨"part-a", [(0 : ℤ)]⟩] ⟨"part-b", [1]⟩
      ⟨"part-b", [1]⟩).1

theorem length_filter_le_one_of_key {α κ : Type} (key : α → κ) (p : α → Bool)
    (hp : ∀ a b, p a = true → p b = true → key a = key b) :
    ∀ (l : List α), l.Pairwise (fun a b => key a ≠ key b) → (l.filter p).length ≤ 1
  | [], _ => by simp
  | a :: t, h => by
    rcases List.pairwise_cons.1 h with ⟨hhead, htail⟩
    by_cases hpa : p a = true
    · have ht : t.filter p = [] :=
        List.filter_eq_nil_iff.2 (fun b hb hpb => absurd (hp a b hpa hpb) (hhead b hb))
      simp [List.filter_cons, hpa, ht]
    · simp only [List.filter_cons, if_neg hpa]
      exact length_filter_le_one_of_key key p hp t htail

theorem length_filter_flatMap_dates_single {β : Type} (p : β → Bool)
    (dates : List ℤ) (block : ℤ → List β) (hd : dates.Nodup) {d : ℤ}
    (hdmem : d ∈ dates) (hmatch : ∀ r ∈ block d, p r = true)
    (hnomatch : ∀ dp ∈ dates, dp ≠ d → ∀ r ∈ block dp, p r = false) :
    ((dates.flatMap block).filter p).length = (block d).length := by
  induction dates with
  | nil => cases hdmem
  | cons dp rest ih =>
    rcases List.nodup_cons.1 hd with ⟨hdnot, hdrest⟩
    rw [List.flatMap_cons, List.filter_append, List.length_append]
    by_cases hdd : dp = d
    · subst hdd
      have h1 : (block dp).filter p = block dp := List.filter_eq_self.2 hmatch
      have h2 : (rest.flatMap block).filter p = [] := by
        refine List.filter_eq_nil_iff.2 (fun r hr => ?_)
        rcases List.mem_flatMap.1 hr with ⟨dq, hdq, hrq⟩
        have hne : dq ≠ dp := fun hcontra => hdnot (hcontra ▸ hdq)
        simp [hnomatch dq (List.mem_cons_of_mem _ hdq) hne r hrq]
      simp [h1, h2]
    · have h1 : (block dp).filter p = [] := by
        refine List.filter_eq_nil_iff.2 (fun r hr => ?_)
        simp [hnomatch dp (List.mem_cons_self _ _) hdd r hr]
      have hdm : d ∈ rest := by
        rcases List.mem_cons.1 hdmem with hcontra | hmem
        · exact absurd hcontra.symm hdd
        · exact hmem
      rw [h1, ih hdrest hdm
        (fun dq hdq hne r hr => hnomatch dq (List.mem_cons_of_mem _ hdq) hne r hr)]
      simp

theorem length_filter_flatMap_single {β : Type} (p : β → Bool)
    (symbols : List String) (dates : List ℤ) (block : String → ℤ → List β)
    (hs : symbols.Nodup) (hd : dates.Nodup) {s : String} {d : ℤ}
    (hsmem : s ∈ symbols) (hdmem : d ∈ dates)
    (hmatch : ∀ r ∈ block s d, p r = true)
    (hnomatch : ∀ sp ∈ symbols, ∀ dp ∈ dates, sp ≠ s ∨ dp ≠ d →
      ∀ r ∈ block sp dp, p r = false) :
    ((symbols.flatMap (fun sp => dates.flatMap (fun dp => block sp dp))).filter p).length
      = (block s d).length := by
  induction symbols with
  | nil => cases hsmem
  | cons sp rest ih =>
    rcases List.nodup_cons.1 hs with ⟨hsnot, hsrest⟩
    rw [List.flatMap_cons, List.filter_append, List.length_append]
    by_cases hss : sp = s
    · subst hss
      have h1 : ((dates.flatMap (fun dp => block sp dp)).filter p).length
          = (block sp d).length :=
        length_filter_flatMap_dates_single p dates (fun dp => block sp dp) hd hdmem hmatch
          (fun dq hdq hne r hr =>
            hnomatch sp (List.mem_cons_self _ _) dq hdq (Or.inr hne) r hr)
      have h2 : ((rest.flatMap (fun sq => dates.flatMap (fun dp => block sq dp))).filter p)
          = [] := by
        refine List.filter_eq_nil_iff.2 (fun r hr => ?_)
        rcases List.mem_flatMap.1 hr with ⟨sq, hsq, hrq⟩
        rcases List.mem_flatMap.1 hrq with ⟨dq, hdq, hrq2⟩
        have hne : sq ≠ sp := fun hcontra => hsnot (hcontra ▸ hsq)
        simp [hnomatch sq (List.mem_cons_of_mem _ hsq) dq hdq (Or.inl hne) r hrq2]
      simp [h1, h2]
    · have h1 : ((dates.flatMap (fun dp => block sp dp)).filter p) = [] := by
        refine List.filter_eq_nil_iff.2 (fun r hr => ?_)
        rcases List.mem_flatMap.1 hr with ⟨dq, hdq, hrq⟩
        simp [hnomatch sp (List.mem_cons_self _ _) dq hdq (Or.inl hss) r hrq]
      have hsm : s ∈ rest := by
        rcases List.mem_cons.1 hsmem with hcontra | hmem
        · exact absurd hcontra.symm hss
        · exact hmem
      rw [h1, ih hsrest hsm
        (fun sq hsq dq hdq hne r hr => hnomatch sq (List.mem_cons_of_mem _ hsq) dq hdq hne r hr)]
      simp

theorem removeDuplicates_key_nodup (rows : List NormRow) :
    (removeDuplicates rows).1.Pairwise (fun a b => normKey a ≠ normKey b) :=
  keepLastPerKey_nodup_keys normKey _

theorem removeInvalidRows_key_nodup (rows : List NormRow)
    (h : rows.Pairwise (fun a b => normKey a ≠ normKey b)) :
    (removeInvalidRows rows).1.Pairwise (fun a b => normKey a ≠ normKey b) := by
  have hf : (rows.filter validRow).Pairwise (fun a b => normKey a ≠ normKey b) :=
    List.Pairwise.sublist (List.filter_sublist rows) h
  exact List.pairwise_map.2 hf

theorem pctChangeAux_map_key (threshold : ℚ) (seen : List (String × Option ℚ))
    (l : List NormRow) :
    (pctChangeAux threshold seen l).map flaggedKey = l.map normKey := by
  induction l generalizing seen with
  | nil => rfl
  | cons r rest ih => simp [pctChangeAux, flaggedKey, normKey, ih]

theorem flagOutliers_key_nodup (rows : List NormRow) (threshold : ℚ)
    (h : rows.Pairwise (fun a b => normKey a ≠ normKey b)) :
    (flagOutliers rows threshold).1.Pairwise (fun a b => flaggedKey a ≠ flaggedKey b) := by
  have hperm : (List.insertionSort NormRowLe rows).Pairwise
      (fun a b => normKey a ≠ normKey b) :=
    (List.Perm.pairwise_iff (fun hxy => Ne.symm hxy)
      (List.perm_insertionSort NormRowLe rows)).2 h
  have h1 : List.Pairwise Ne ((List.insertionSort NormRowLe rows).map normKey) :=
    List.pairwise_map.2 hperm
  have h2 : List.Pairwise Ne ((flagOutliers rows threshold).1.map flaggedKey) := by
    rw [show (flagOutliers rows threshold).1
        = pctChangeAux threshold [] (List.insertionSort NormRowLe rows) from rfl,
      pctChangeAux_map_key]
    exact h1
  exact List.pairwise_map.1 h2

theorem qualityStage3_key_nodup (rows : List NormRow) (threshold : ℚ) :
    (qualityStage3 rows threshold).Pairwise (fun a b => flaggedKey a ≠ flaggedKey b) :=
  flagOutliers_key_nodup _ _ (removeInvalidRows_key_nodup _ (removeDuplicates_key_nodup _))

theorem alignBlock_fields (rows : List FlaggedRow) (s : String) (d : ℤ) :
    ∀ r ∈ alignBlock rows s d, r.symbol = s ∧ r.date = d := by
  intro r hr
  rcases hfil : rows.filter (fun r => decide (r.symbol = s ∧ r.date = some d)) with - | ⟨a, t⟩
  · simp only [alignBlock, hfil, List.mem_singleton] at hr
    subst hr
    exact ⟨rfl, rfl⟩
  · simp only [alignBlock, hfil, List.mem_map] at hr
    rcases hr with ⟨x, -, rfl⟩
    exact ⟨rfl, rfl⟩

theorem alignBlock_length_one (rows : List FlaggedRow) (s : String) (d : ℤ)
    (h : rows.Pairwise (fun a b => flaggedKey a ≠ flaggedKey b)) :
    (alignBlock rows s d).length = 1 := by
  have hle : (rows.filter (fun r => decide (r.symbol = s ∧ r.date = some d))).length ≤ 1 :=
    length_filter_le_one_of_key flaggedKey _
      (fun a b ha hb => by
        simp only [decide_eq_true_eq] at ha hb
        simp [flaggedKey, ha.1, ha.2, hb.1, hb.2]) rows h
  rcases hfil : rows.filter (fun r => decide (r.symbol = s ∧ r.date = some d)) with - | ⟨a, t⟩
  · simp only [alignBlock, hfil]
    rfl
  · rw [hfil] at hle
    simp only [List.length_cons] at hle
    simp only [alignBlock, hfil, List.length_map, List.length_cons]
    omega

theorem alignBlock_cases (rows : List FlaggedRow) (s : String) (d : ℤ) :
    ∀ r ∈ alignBlock rows s d,
      (∃ src ∈ rows, src.symbol = s ∧ src.date = some d ∧ r = alignedOfMatch s d src) ∨
      (r = alignedMissing s d ∧ ∀ src ∈ rows, ¬(src.symbol = s ∧ src.date = some d)) := by
  intro r hr
  rcases hfil : rows.filter (fun r => decide (r.symbol = s ∧ r.date = some d)) with - | ⟨a, t⟩
  · right
    simp only [alignBlock, hfil, List.mem_singleton] at hr
    refine ⟨hr, fun src hsrc hcontra => ?_⟩
    have := List.filter_eq_nil_iff.1 hfil src hsrc
    simp [hcontra.1, hcontra.2] at this
  · left
    simp only [alignBlock, hfil, List.mem_map] at hr
    rcases hr with ⟨x, hx, rfl⟩
    have hx2 : x ∈ rows.filter (fun r => decide (r.symbol = s ∧ r.date = some d)) := by
      rw [hfil]; exact hx
    rcases List.mem_filter.1 hx2 with ⟨hxrows, hxpred⟩
    simp only [decide_eq_true_eq] at hxpred
    exact ⟨x, hxrows, hxpred.1, hxpred.2, rfl⟩

theorem qualityPipelineRows_eq (rows : List NormRow) (symbols : List String)
    (threshold : ℚ) (hreq : requestedSymbolsOf symbols ≠ [])
    (hst : qualityStage3 rows threshold ≠ []) :
    qualityPipelineRows rows symbols threshold =
      (requestedSymbolsOf symbols).flatMap (fun s =>
        (qualityCalendar rows threshold).flatMap (fun d =>
          alignBlock (qualityStage3 rows threshold) s d)) := by
  unfold qualityPipelineRows alignToCommonCalendar qualityCalendar
  rw [if_neg (by simpa [List.isEmpty_iff] using hst)]
  simp only [List.isEmpty_iff]
  rw [if_neg hreq]

/-- C2: for a quality-stage run with a non-empty requested-symbol set, with
`S` the requested symbols and `C` the sorted set of dates surviving steps 1-3,
the cleaned output has exactly one row per `(s, d) ∈ S × C`, no other rows,
and pairs with no surviving source row have all price/volume fields null and
`is_missing_bar = true`. -/
theorem quality_calendar_alignment (rows : List NormRow) (symbols : List String)
    (threshold : ℚ) (hreq : requestedSymbolsOf symbols ≠ []) :
    (∀ s ∈ requestedSymbolsOf symbols, ∀ d ∈ qualityCalendar rows threshold,
      ((qualityPipelineRows rows symbols threshold).filter
        (fun r => decide (r.symbol = s ∧ r.date = d))).length = 1) ∧
    (∀ r ∈ qualityPipelineRows rows symbols threshold,
      r.symbol ∈ requestedSymbolsOf symbols ∧
        r.date ∈ qualityCalendar rows threshold) ∧
    (∀ r ∈ qualityPipelineRows rows symbols threshold,
      (∀ src ∈ qualityStage3 rows threshold,
        ¬(src.symbol = r.symbol ∧ src.date = some r.date)) →
      r.open_ = none ∧ r.high = none ∧ r.low = none ∧ r.close = none ∧
        r.adj_close = none ∧ r.volume = none ∧ r.is_missing_bar = true) := by
  by_cases hst : qualityStage3 rows threshold = []
  · have hout : qualityPipelineRows rows symbols threshold = [] := by
      simp [qualityPipelineRows, alignToCommonCalendar, hst]
    have hcal : qualityCalendar rows threshold = [] := by
      simp [qualityCalendar, hst, sortedDedupInts]
    simp [hout, hcal]
  · have heq := qualityPipelineRows_eq rows symbols threshold hreq hst
    have hnodup := qualityStage3_key_nodup rows threshold
    refine ⟨?_, ?_, ?_⟩
    · intro s hs d hd
      rw [heq]
      rw [length_filter_flatMap_single (fun r => decide (r.symbol = s ∧ r.date = d))
        (requestedSymbolsOf symbols) (qualityCalendar rows threshold)
        (fun sp dp => alignBlock (qualityStage3 rows threshold) sp dp)
        (nodup_sortedDedupStrings _) (nodup_sortedDedupInts _) hs hd
        ?_ ?_]
      · exact alignBlock_length_one _ _ _ hnodup
      · intro r hr
        obtain ⟨h1, h2⟩ := alignBlock_fields _ _ _ r hr
        simp [h1, h2]
      · intro sp hsp dp hdp hne r hr
        obtain ⟨h1, h2⟩ := alignBlock_fields _ _ _ r hr
        rcases hne with hne | hne <;> simp [h1, h2, hne]
    · intro r hr
      rw [heq] at hr
      rcases List.mem_flatMap.1 hr with ⟨s, hs, hr2⟩
      rcases List.mem_flatMap.1 hr2 with ⟨d, hd, hr3⟩
      obtain ⟨h1, h2⟩ := alignBlock_fields _ _ _ r hr3
      exact ⟨h1 ▸ hs, h2 ▸ hd⟩
    · intro r hr hnosrc
      rw [heq] at hr
      rcases List.mem_flatMap.1 hr with ⟨s, hs, hr2⟩
      rcases List.mem_flatMap.1 hr2 with ⟨d, hd, hr3⟩
      rcases alignBlock_cases _ _ _ r hr3 with ⟨src, hsrc, h1, h2, rfl⟩ | ⟨rfl, -⟩
      · exact absurd ⟨by simpa [alignedOfMatch] using h1,
          by simpa [alignedOfMatch] using h2⟩ (hnosrc src hsrc)
      · simp [alignedMissing]

/-- C2 witness: one valid SPY row on date 0 yields exactly one cleaned row for
the pair `(SPY, 0)`. -/
theorem quality_calendar_alignment_witness :
    ((qualityPipelineRows
        [⟨"SPY", some 0, some 99, some 101, some 98, some 100, some 100, some 1000⟩]
        ["SPY"] (1/5)).filter
      (fun r => decide (r.symbol = "SPY" ∧ r.date = (0 : ℤ)))).length = 1 :=
  (quality_calendar_alignment
      [⟨"SPY", some 0, some 99, some 101, some 98, some 100, some 100, some 1000⟩]
      ["SPY"] (1/5) (by decide)).1 "SPY" (by decide) 0 (by decide)

theorem optKeyLe_trans {a b c : Option ℤ} (h₁ : optKeyLe a b = true)
    (h₂ : optKeyLe b c = true) : optKeyLe a c = true := by
  cases a <;> cases b <;> cases c <;> simp_all [optKeyLe] ; omega

theorem optKeyLe_total (a b : Option ℤ) : optKeyLe a b = true ∨ optKeyLe b a = true := by
  cases a <;> cases b <;> simp [optKeyLe] ; omega

theorem optKeyLt_trans {a b c : Option ℤ} (h₁ : optKeyLt a b = true)
    (h₂ : optKeyLt b c = true) : optKeyLt a c = true := by
  cases a <;> cases b <;> cases c <;> simp_all [optKeyLt] ; omega

theorem optKeyLt_asymm {a b : Option ℤ} (h₁ : optKeyLt a b = true)
    (h₂ : optKeyLt b a = true) : False := by
  cases a <;> cases b <;> simp_all [optKeyLt]
  all_goals omega

theorem optKeyLt_total_ne (a b : Option ℤ) (h : a ≠ b) :
    optKeyLt a b = true ∨ optKeyLt b a = true := by
  cases a <;> cases b <;> simp_all [optKeyLt]

theorem charListLt_trans : ∀ (x y z : List Char),
    charListLt x y = true → charListLt y z = true → charListLt x z = true := by
  intro x
  induction x with
  | nil =>
    intro y z h₁ h₂
    cases z with
    | nil =>
      cases y with
      | nil => simp [charListLt] at h₁
      | cons b bs => simp [charListLt] at h₂
    | cons c cs => simp [charListLt]
  | cons a as ih =>
    intro y z h₁ h₂
    cases y with
    | nil => simp [charListLt] at h₁
    | cons b bs =>
      cases z with
      | nil => simp [charListLt] at h₂
      | cons c cs =>
        simp only [charListLt, Bool.or_eq_true, Bool.and_eq_true,
          decide_eq_true_eq] at h₁ h₂ ⊢
        rcases h₁ with hab | ⟨hab, h₁⟩ <;> rcases h₂ with hbc | ⟨hbc, h₂⟩
        · exact Or.inl (lt_trans hab hbc)
        · exact Or.inl (by rw [← hbc]; exact hab)
        · exact Or.inl (by rw [hab]; exact hbc)
        · exact Or.inr ⟨hab.trans hbc, ih bs cs h₁ h₂⟩

theorem charListLt_asymm : ∀ (x y : List Char),
    charListLt x y = true → charListLt y x = true → False := by
  intro x
  induction x with
  | nil => intro y h₁ h₂; cases y <;> simp [charListLt] at h₁ h₂
  | cons a as ih =>
    intro y h₁ h₂
    cases y with
    | nil => simp [charListLt] at h₁
    | cons b bs =>
      simp only [charListLt, Bool.or_eq_true, Bool.and_eq_true,
        decide_eq_true_eq] at h₁ h₂
      rcases h₁ with h | ⟨he, h⟩ <;> rcases h₂ with g | ⟨ge, g⟩
      · exact absurd (lt_trans h g) (lt_irrefl a)
      · exact absurd h (by rw [ge]; exact lt_irrefl a)
      · exact absurd g (by rw [he]; exact lt_irrefl b)
      · exact ih bs h g

theorem charListLt_total_ne : ∀ (x y : List Char), x ≠ y →
    charListLt x y = true ∨ charListLt y x = true := by
  intro x
  induction x with
  | nil =>
    intro y h
    cases y with
    | nil => exact absurd rfl h
    | cons c cs => left; simp [charListLt]
  | cons a as ih =>
    intro y h
    cases y with
    | nil => right; simp [charListLt]
    | cons b bs =>
      by_cases hab : a = b
      · subst hab
        have hne : as ≠ bs := fun hcontra => h (by rw [hcontra])
        rcases ih bs hne with h₁ | h₁
        · left; simp [charListLt, h₁]
        · right; simp [charListLt, h₁]
      · rcases lt_or_gt_of_ne hab with hlt | hgt
        · left; simp [charListLt, hlt]
        · right; simp [charListLt, hgt]

theorem cleanedRowLe_trans : ∀ (a b c : CleanedRow),
    CleanedRowLe a b → CleanedRowLe b c → CleanedRowLe a c := by
  intro a b c h₁ h₂
  unfold CleanedRowLe at *
  by_cases hab : a.symbol = b.symbol <;> by_cases hbc : b.symbol = c.symbol
  · rw [if_pos hab] at h₁
    rw [if_pos hbc] at h₂
    rw [if_pos (hab.trans hbc)]
    by_cases dab : a.date = b.date <;> by_cases dbc : b.date = c.date
    · rw [if_pos dab] at h₁
      rw [if_pos dbc] at h₂
      rw [if_pos (dab.trans dbc)]
      exact optKeyLe_trans h₁ h₂
    · rw [if_pos dab] at h₁
      rw [if_neg dbc] at h₂
      rw [if_neg (fun hc => dbc (dab.symm.trans hc)), dab]
      exact h₂
    · rw [if_neg dab] at h₁
      rw [if_pos dbc] at h₂
      rw [if_neg (fun hc => dab (hc.trans dbc.symm)), ← dbc]
      exact h₁
    · rw [if_neg dab] at h₁
      rw [if_neg dbc] at h₂
      rw [if_neg (fun hc => optKeyLt_asymm h₁ (by rwa [← hc] at h₂))]
      exact optKeyLt_trans h₁ h₂
  · rw [if_pos hab] at h₁
    rw [if_neg hbc] at h₂
    rw [if_neg (fun hc => hbc (hab.symm.trans hc)), hab]
    exact h₂
  · rw [if_neg hab] at h₁
    rw [if_pos hbc] at h₂
    rw [if_neg (fun hc => hab (hc.trans hbc.symm)), ← hbc]
    exact h₁
  · rw [if_neg hab] at h₁
    rw [if_neg hbc] at h₂
    rw [if_neg (fun hc => charListLt_asymm _ _ h₁
      (by rwa [← congrArg String.data hc] at h₂))]
    exact charListLt_trans _ _ _ h₁ h₂

theorem cleanedRowLe_total : ∀ (a b : CleanedRow), CleanedRowLe a b ∨ CleanedRowLe b a := by
  intro a b
  unfold CleanedRowLe
  by_cases hs : a.symbol = b.symbol
  · rw [if_pos hs, if_pos hs.symm]
    by_cases hd : a.date = b.date
    · rw [if_pos hd, if_pos hd.symm]
      exact optKeyLe_total _ _
    · rw [if_neg hd, if_neg (fun hc => hd hc.symm)]
      exact optKeyLt_total_ne _ _ hd
  · rw [if_neg hs, if_neg (fun hc => hs hc.symm)]
    exact charListLt_total_ne _ _ (fun hc => hs (String.ext hc))

theorem mem_last_split {α : Type} (l : List α) (a : α) (h : a ∈ l) :
    ∃ l₁ l₂, l = l₁ ++ a :: l₂ ∧ a ∉ l₂ := by
  induction l with
  | nil => cases h
  | cons b t ih =>
    by_cases hmem : a ∈ t
    · rcases ih hmem with ⟨l₁, l₂, hdec, hnot⟩
      exact ⟨b :: l₁, l₂, by simp [hdec], hnot⟩
    · have hab : a = b := by
        rcases List.mem_cons.1 h with h1 | h1
        · exact h1
        · exact absurd h1 hmem
      subst hab
      exact ⟨[], t, rfl, hmem⟩

/-- C7: the indicator stage's freshness dedup sorts by
`(symbol, date, pulled_at_utc)` and keeps the last row of each
`(symbol, date)` key, so when exactly two rows (up to copies) share a key and
carry different timestamps, the row with the later timestamp survives and the
earlier one is dropped. -/
theorem dedupe_latest_keeps_later (rows : List CleanedRow) (r₁ r₂ : CleanedRow)
    (h₁ : r₁ ∈ rows) (h₂ : r₂ ∈ rows) (hkey : cleanedKey r₁ = cleanedKey r₂)
    (t₁ t₂ : ℤ) (hp₁ : r₁.pulled_at_utc = some t₁) (hp₂ : r₂.pulled_at_utc = some t₂)
    (hlt : t₁ < t₂)
    (honly : ∀ x ∈ rows, cleanedKey x = cleanedKey r₁ → x = r₁ ∨ x = r₂) :
    r₂ ∈ dedupeLatestRows rows ∧ r₁ ∉ dedupeLatestRows rows := by
  have hsym : r₁.symbol = r₂.symbol := congrArg Prod.fst hkey
  have hdate : r₁.date = r₂.date := congrArg Prod.snd hkey
  have hne12 : r₁ ≠ r₂ := by
    intro hcontra
    rw [hcontra, hp₂] at hp₁
    rw [Option.some.injEq] at hp₁
    omega
  have hle21 : ¬ CleanedRowLe r₂ r₁ := by
    unfold CleanedRowLe
    rw [if_pos hsym.symm, if_pos hdate.symm, hp₂, hp₁]
    simp [optKeyLe]
    omega
  have hpair : (List.insertionSort CleanedRowLe rows).Pairwise CleanedRowLe :=
    @List.sorted_insertionSort CleanedRow CleanedRowLe _
      ⟨cleanedRowLe_total⟩ ⟨cleanedRowLe_trans⟩ rows
  have hmem2S : r₂ ∈ List.insertionSort CleanedRowLe rows :=
    (List.mem_insertionSort CleanedRowLe).2 h₂
  constructor
  · rcases mem_last_split _ r₂ hmem2S with ⟨l₁, l₂, hdec, hnot⟩
    show r₂ ∈ keepLastPerKey cleanedKey (List.insertionSort CleanedRowLe rows)
    rw [hdec]
    apply keepLastPerKey_mem_of_last
    intro y hy hkeyy
    have hyS : y ∈ List.insertionSort CleanedRowLe rows := by
      rw [hdec]
      exact List.mem_append_right _ (List.mem_cons_of_mem _ hy)
    have hyrows : y ∈ rows := (List.mem_insertionSort CleanedRowLe).1 hyS
    rcases honly y hyrows (hkeyy.trans hkey.symm) with hy1 | hy2
    · exfalso
      have hpairdec := hdec ▸ hpair
      have hp := (List.pairwise_cons.1 (List.pairwise_append.1 hpairdec).2.1).1 y hy
      rw [hy1] at hp
      exact hle21 hp
    · rw [hy2] at hy
      exact absurd hy hnot
  · show r₁ ∉ keepLastPerKey cleanedKey (List.insertionSort CleanedRowLe rows)
    apply keepLastPerKey_not_mem
    intro l₁ l₂ hdec
    have hmem2 : r₂ ∈ l₁ ++ r₁ :: l₂ := hdec ▸ hmem2S
    rcases List.mem_append.1 hmem2 with hin1 | hin2
    · exfalso
      have hpairdec := hdec ▸ hpair
      have hp := (List.pairwise_append.1 hpairdec).2.2 r₂ hin1 r₁ (List.mem_cons_self _ _)
      exact hle21 hp
    · rcases List.mem_cons.1 hin2 with hcontra | hin2p
      · exact absurd hcontra.symm hne12
      · exact ⟨r₂, hin2p, hkey.symm⟩

/-- C7 witness: two SPY rows on the same date with timestamps 1 < 2; the row
pulled at 2 survives the freshness dedup and the row pulled at 1 does not. -/
theorem dedupe_latest_keeps_later_witness :
    ((⟨"SPY", some 0, none, none, none, some 101, some 101, none, some false,
        some 2⟩ : CleanedRow) ∈
      dedupeLatestRows
        [⟨"SPY", some 0, none, none, none, some 100, some 100, none, some false, some 1⟩,
         ⟨"SPY", some 0, none, none, none, some 101, some 101, none, some false, some 2⟩]) ∧
    ((⟨"SPY", some 0, none, none, none, some 100, some 100, none, some false,
        some 1⟩ : CleanedRow) ∉
      dedupeLatestRows
        [⟨"SPY", some 0, none, none, none, some 100, some 100, none, some false, some 1⟩,
         ⟨"SPY", some 0, none, none, none, some 101, some 101, none, some false, some 2⟩]) :=
  dedupe_latest_keeps_later
    [⟨"SPY", some 0, none, none, none, some 100, some 100, none, some false, some 1⟩,
     ⟨"SPY", some 0, none, none, none, some 101, some 101, none, some false, some 2⟩]
    ⟨"SPY", some 0, none, none, none, some 100, some 100, none, some false, some 1⟩
    ⟨"SPY", some 0, none, none, none, some 101, some 101, none, some false, some 2⟩
    (by decide) (by decide) rfl 1 2 rfl rfl (by decide) (by decide)

theorem getD_none_of_all_none :
    ∀ (l : List (Option ℚ)), (∀ y ∈ l, y = none) → ∀ (i : ℕ), l.getD i none = none := by
  intro l
  induction l with
  | nil => intro _ i; cases i <;> rfl
  | cons a t ih =>
    intro h i
    cases i with
    | zero =>
      rw [List.getD_cons_zero]
      exact h a (List.mem_cons_self _ _)
    | succ n =>
      rw [List.getD_cons_succ]
      exact ih (fun y hy => h y (List.mem_cons_of_mem _ hy)) n

theorem rollingMean_all_none (w : ℕ) (xs : List (Option ℚ)) (h : xs.length < w) :
    ∀ y ∈ rollingMean w xs, y = none := by
  intro y hy
  rcases List.mem_map.1 hy with ⟨i, hi, rfl⟩
  have hi2 : i < xs.length := List.mem_range.1 hi
  unfold rollingMeanAt
  rw [if_pos (by omega)]

theorem rollingMax_all_none (w : ℕ) (xs : List (Option ℚ)) (h : xs.length < w) :
    ∀ y ∈ rollingMax w xs, y = none := by
  intro y hy
  rcases List.mem_map.1 hy with ⟨i, hi, rfl⟩
  have hi2 : i < xs.length := List.mem_range.1 hi
  unfold rollingMaxAt
  rw [if_pos (by omega)]

theorem ewmMeanAux_all_none (alpha : ℚ) (p : ℕ) :
    ∀ (xs : List (Option ℚ)) (st : Option (ℚ × ℚ)) (cnt : ℕ),
      cnt + xs.countP (fun x => x.isSome) < p →
      ∀ y ∈ ewmMeanAux alpha p st cnt xs, y = none := by
  intro xs
  induction xs with
  | nil =>
    intro st cnt _ y hy
    simp [ewmMeanAux] at hy
  | cons x rest ih =>
    intro st cnt h y hy
    rw [List.countP_cons] at h
    simp only [ewmMeanAux, List.mem_cons] at hy
    rcases hy with rfl | hy2
    · rcases hst : ewmStep alpha st x with - | ⟨num, den⟩
      · simp [hst]
      · simp only [hst]
        rw [if_neg]
        cases hx : x.isSome <;> simp [hx] at h ⊢ <;> omega
    · refine ih (ewmStep alpha st x) (if x.isSome then cnt + 1 else cnt) ?_ y hy2
      cases hx : x.isSome <;> simp [hx] at h ⊢ <;> omega

theorem ewmMean_all_none (alpha : ℚ) (p : ℕ) (xs : List (Option ℚ))
    (h : xs.length < p) : ∀ y ∈ ewmMean alpha p xs, y = none :=
  ewmMeanAux_all_none alpha p xs none 0
    (by have := List.countP_le_length (fun x : Option ℚ => x.isSome) (l := xs); omega)

theorem shift1_length (xs : List (Option ℚ)) : (shift1 xs).length = xs.length := by
  cases xs with
  | nil => rfl
  | cons a t =>
    simp [shift1, List.length_dropLast]

theorem diffOpt_length (xs : List (Option ℚ)) : (diffOpt xs).length = xs.length := by
  simp [diffOpt, List.length_zip, shift1_length]

theorem wilderRsi_all_none (xs : List (Option ℚ)) (p : ℕ) (h : xs.length < p) :
    ∀ y ∈ wilderRsi xs p, y = none := by
  intro y hy
  simp only [wilderRsi, List.mem_map] at hy
  rcases hy with ⟨i, hi, rfl⟩
  have hlen : ((diffOpt xs).map (fun d => d.map (fun x => max (-x) 0))).length < p := by
    rw [List.length_map, diffOpt_length]
    exact h
  have hal := getD_none_of_all_none _
    (ewmMean_all_none (1 / (p : ℚ)) p _ hlen) i
  rw [hal]

theorem wilderAtr_all_none (adjHigh adjLow adjClose : List (Option ℚ)) (p : ℕ)
    (h : adjClose.length < p) : ∀ y ∈ wilderAtr adjHigh adjLow adjClose p, y = none := by
  intro y hy
  have hlen : ((List.range adjClose.length).map (fun i =>
      trueRangeAt (adjHigh.getD i none) (adjLow.getD i none)
        ((shift1 adjClose).getD i none))).length < p := by
    rw [List.length_map, List.length_range]
    exact h
  exact ewmMean_all_none (1 / (p : ℚ)) p _ hlen y hy

/-- C4: in the indicator engine output, every missing-bar row has all seven
indicator columns null and `indicator_ready = false`; and a row is
`indicator_ready` iff every enabled indicator column is non-null and the row
is not a missing bar. -/
theorem indicator_masking_readiness (cfg : IndicatorConfig) (rows : List CleanedRow)
    (out : FeatRow) (hmem : out ∈ computeSymbolIndicators cfg rows) :
    ((out.is_missing_bar = some true) →
      out.sma200 = none ∧ out.sma50 = none ∧ out.ema20 = none ∧ out.rsi14 = none ∧
      out.atr14 = none ∧ out.rolling_high_20 = none ∧ out.volume_sma50 = none ∧
      out.indicator_ready = false) ∧
    (out.indicator_ready = true ↔
      (out.sma200.isSome = true ∧ out.sma50.isSome = true ∧ out.ema20.isSome = true ∧
       out.rsi14.isSome = true ∧ out.atr14.isSome = true ∧
       out.rolling_high_20.isSome = true ∧
       (cfg.include_volume_sma50 = true → out.volume_sma50.isSome = true) ∧
       out.is_missing_bar.getD false = false)) := by
  rcases List.mem_map.1 hmem with ⟨i, hi, rfl⟩
  cases hm : ((List.insertionSort DateLe rows).getD i defaultCleanedRow).is_missing_bar.getD false
  · constructor
    · intro habs
      exfalso
      have : ((List.insertionSort DateLe rows).getD i
          defaultCleanedRow).is_missing_bar.getD false = true := by
        have hfield : (featRowAt cfg (List.insertionSort DateLe rows) i).is_missing_bar
            = ((List.insertionSort DateLe rows).getD i defaultCleanedRow).is_missing_bar := rfl
        rw [hfield] at habs
        rw [habs]
        rfl
      rw [hm] at this
      cases this
    · cases hinc : cfg.include_volume_sma50 <;>
        simp only [featRowAt, hm, hinc] <;> simp [and_assoc]
  · constructor
    · intro _
      simp only [featRowAt, hm]
      simp
    · simp only [featRowAt, hm]
      simp

/-- C4 witness: on a two-row input whose first (by date) row is a synthesized
missing bar, that row's indicator columns are all null and it is not
indicator-ready. -/
theorem indicator_masking_readiness_witness :
    ((computeSymbolIndicators {} [
        ⟨"SPY", some 0, none, none, none, none, none, none, some true, none⟩,
        ⟨"SPY", some 1, some 99, some 101, some 98, some 100, some 100, some 1000,
          some false, none⟩]).getD 0 defaultFeatRow).sma200 = none ∧
    ((computeSymbolIndicators {} [
        ⟨"SPY", some 0, none, none, none, none, none, none, some true, none⟩,
        ⟨"SPY", some 1, some 99, some 101, some 98, some 100, some 100, some 1000,
          some false, none⟩]).getD 0 defaultFeatRow).indicator_ready = false := by
  have hmem : ((computeSymbolIndicators {} [
      (⟨"SPY", some 0, none, none, none, none, none, none, some true, none⟩ : CleanedRow),
      ⟨"SPY", some 1, some 99, some 101, some 98, some 100, some 100, some 1000,
        some false, none⟩]).getD 0 defaultFeatRow) ∈ computeSymbolIndicators {} [
      ⟨"SPY", some 0, none, none, none, none, none, none, some true, none⟩,
      ⟨"SPY", some 1, some 99, some 101, some 98, some 100, some 100, some 1000,
        some false, none⟩] := by
    rw [show ((computeSymbolIndicators {} [
      (⟨"SPY", some 0, none, none, none, none, none, none, some true, none⟩ : CleanedRow),
      ⟨"SPY", some 1, some 99, some 101, some 98, some 100, some 100, some 1000,
        some false, none⟩]).getD 0 defaultFeatRow)
      = featRowAt {} (List.insertionSort DateLe [
        ⟨"SPY", some 0, none, none, none, none, none, none, some true, none⟩,
        ⟨"SPY", some 1, some 99, some 101, some 98, some 100, some 100, some 1000,
          some false, none⟩]) 0 from rfl]
    exact List.mem_map.2 ⟨0, by decide, rfl⟩
  have h := (indicator_masking_readiness {} _ _ hmem).1 rfl
  exact ⟨h.1, h.2.2.2.2.2.2.2⟩

/-- C8: when a symbol's series is shorter than an indicator's configured
period, that indicator's column is null on every output row and
`indicator_ready` is false on every output row. -/
theorem indicator_warmup (cfg : IndicatorConfig) (rows : List CleanedRow) :
    (rows.length < cfg.sma200_period → ∀ out ∈ computeSymbolIndicators cfg rows,
      out.sma200 = none ∧ out.indicator_ready = false) ∧
    (rows.length < cfg.sma50_period → ∀ out ∈ computeSymbolIndicators cfg rows,
      out.sma50 = none ∧ out.indicator_ready = false) ∧
    (rows.length < cfg.ema20_period → ∀ out ∈ computeSymbolIndicators cfg rows,
      out.ema20 = none ∧ out.indicator_ready = false) ∧
    (rows.length < cfg.rsi14_period → ∀ out ∈ computeSymbolIndicators cfg rows,
      out.rsi14 = none ∧ out.indicator_ready = false) ∧
    (rows.length < cfg.atr14_period → ∀ out ∈ computeSymbolIndicators cfg rows,
      out.atr14 = none ∧ out.indicator_ready = false) ∧
    (rows.length < cfg.rolling_high_period → ∀ out ∈ computeSymbolIndicators cfg rows,
      out.rolling_high_20 = none ∧ out.indicator_ready = false) ∧
    (cfg.include_volume_sma50 = true → rows.length < cfg.volume_sma50_period →
      ∀ out ∈ computeSymbolIndicators cfg rows,
      out.volume_sma50 = none ∧ out.indicator_ready = false) := by
  have hlen : ∀ (f : CleanedRow → Option ℚ),
      ((List.insertionSort DateLe rows).map f).length = rows.length := by
    intro f
    rw [List.length_map, List.length_insertionSort]
  refine ⟨?_, ?_, ?_, ?_, ?_, ?_, ?_⟩
  · intro h out hmem
    rcases List.mem_map.1 hmem with ⟨i, hi, rfl⟩
    have hcol := getD_none_of_all_none _
      (rollingMean_all_none cfg.sma200_period (adjCloseCol (List.insertionSort DateLe rows))
        (by rw [show adjCloseCol (List.insertionSort DateLe rows)
          = (List.insertionSort DateLe rows).map (fun r => r.adj_close) from rfl, hlen]
            exact h)) i
    constructor <;> (simp only [featRowAt]; rw [hcol]; simp)
  · intro h out hmem
    rcases List.mem_map.1 hmem with ⟨i, hi, rfl⟩
    have hcol := getD_none_of_all_none _
      (rollingMean_all_none cfg.sma50_period (adjCloseCol (List.insertionSort DateLe rows))
        (by rw [show adjCloseCol (List.insertionSort DateLe rows)
          = (List.insertionSort DateLe rows).map (fun r => r.adj_close) from rfl, hlen]
            exact h)) i
    constructor <;> (simp only [featRowAt]; rw [hcol]; simp)
  · intro h out hmem
    rcases List.mem_map.1 hmem with ⟨i, hi, rfl⟩
    have hcol := getD_none_of_all_none _
      (ewmMean_all_none (2 / ((cfg.ema20_period : ℚ) + 1)) cfg.ema20_period
        (adjCloseCol (List.insertionSort DateLe rows))
        (by rw [show adjCloseCol (List.insertionSort DateLe rows)
          = (List.insertionSort DateLe rows).map (fun r => r.adj_close) from rfl, hlen]
            exact h)) i
    constructor <;> (simp only [featRowAt]; rw [hcol]; simp)
  · intro h out hmem
    rcases List.mem_map.1 hmem with ⟨i, hi, rfl⟩
    have hcol := getD_none_of_all_none _
      (wilderRsi_all_none (adjCloseCol (List.insertionSort DateLe rows)) cfg.rsi14_period
        (by rw [show adjCloseCol (List.insertionSort DateLe rows)
          = (List.insertionSort DateLe rows).map (fun r => r.adj_close) from rfl, hlen]
            exact h)) i
    constructor <;> (simp only [featRowAt]; rw [hcol]; simp)
  · intro h out hmem
    rcases List.mem_map.1 hmem with ⟨i, hi, rfl⟩
    have hcol := getD_none_of_all_none _
      (wilderAtr_all_none (adjHighCol (List.insertionSort DateLe rows))
        (adjLowCol (List.insertionSort DateLe rows))
        (adjCloseCol (List.insertionSort DateLe rows)) cfg.atr14_period
        (by rw [show adjCloseCol (List.insertionSort DateLe rows)
          = (List.insertionSort DateLe rows).map (fun r => r.adj_close) from rfl, hlen]
            exact h)) i
    constructor <;> (simp only [featRowAt]; rw [hcol]; simp)
  · intro h out hmem
    rcases List.mem_map.1 hmem with ⟨i, hi, rfl⟩
    have hcol := getD_none_of_all_none _
      (rollingMax_all_none cfg.rolling_high_period
        (adjHighCol (List.insertionSort DateLe rows))
        (by rw [show adjHighCol (List.insertionSort DateLe rows)
          = (List.insertionSort DateLe rows).map
            (fun r => r.high.map (fun x => x * ratioOf r)) from rfl, hlen]
            exact h)) i
    constructor <;> (simp only [featRowAt]; rw [hcol]; simp)
  · intro hinc h out hmem
    rcases List.mem_map.1 hmem with ⟨i, hi, rfl⟩
    have hcol := getD_none_of_all_none _
      (rollingMean_all_none cfg.volume_sma50_period
        (volumeCol (List.insertionSort DateLe rows))
        (by rw [show volumeCol (List.insertionSort DateLe rows)
          = (List.insertionSort DateLe rows).map (fun r => r.volume) from rfl, hlen]
            exact h)) i
    constructor <;> (simp only [featRowAt, hinc]; rw [hcol]; simp)

/-- C8 witness: with every period configured to 3 and only two input rows,
the first output row has a null `sma200` and is not indicator-ready. -/
theorem indicator_warmup_witness :
    ((computeSymbolIndicators ⟨3, 3, 3, 3, 3, 3, 3, true⟩ [
        ⟨"SPY", some 0, some 99, some 101, some 98, some 100, some 100, some 1000,
          some false, none⟩,
        ⟨"SPY", some 1, some 100, some 102, some 99, some 101, some 101, some 1000,
          some false, none⟩]).getD 0 defaultFeatRow).sma200 = none ∧
    ((computeSymbolIndicators ⟨3, 3, 3, 3, 3, 3, 3, true⟩ [
        ⟨"SPY", some 0, some 99, some 101, some 98, some 100, some 100, some 1000,
          some false, none⟩,
        ⟨"SPY", some 1, some 100, some 102, some 99, some 101, some 101, some 1000,
          some false, none⟩]).getD 0 defaultFeatRow).indicator_ready = false := by
  have hmem : ((computeSymbolIndicators ⟨3, 3, 3, 3, 3, 3, 3, true⟩ [
      (⟨"SPY", some 0, some 99, some 101, some 98, some 100, some 100, some 1000,
        some false, none⟩ : CleanedRow),
      ⟨"SPY", some 1, some 100, some 102, some 99, some 101, some 101, some 1000,
        some false, none⟩]).getD 0 defaultFeatRow) ∈
      computeSymbolIndicators ⟨3, 3, 3, 3, 3, 3, 3, true⟩ [
      ⟨"SPY", some 0, some 99, some 101, some 98, some 100, some 100, some 1000,
        some false, none⟩,
      ⟨"SPY", some 1, some 100, some 102, some 99, some 101, some 101, some 1000,
        some false, none⟩] := by
    rw [show ((computeSymbolIndicators ⟨3, 3, 3, 3, 3, 3, 3, true⟩ [
      (⟨"SPY", some 0, some 99, some 101, some 98, some 100, some 100, some 1000,
        some false, none⟩ : CleanedRow),
      ⟨"SPY", some 1, some 100, some 102, some 99, some 101, some 101, some 1000,
        some false, none⟩]).getD 0 defaultFeatRow)
      = featRowAt ⟨3, 3, 3, 3, 3, 3, 3, true⟩ (List.insertionSort DateLe [
        ⟨"SPY", some 0, some 99, some 101, some 98, some 100, some 100, some 1000,
          some false, none⟩,
        ⟨"SPY", some 1, some 100, some 102, some 99, some 101, some 101, some 1000,
          some false, none⟩]) 0 from rfl]
    exact List.mem_map.2 ⟨0, by decide, rfl⟩
  exact (indicator_warmup ⟨3, 3, 3, 3, 3, 3, 3, true⟩ _).1 (by decide) _ hmem

/-- C3: the benchmark rows' regime flags follow the
`regime_known = adj_close.notna & sma200.notna`,
`regime_on = regime_known & (adj_close > sma200)` formulas; every requested
symbol's row inherits exactly the benchmark verdict of its date (join by date
alone); and a target date absent from the benchmark gives
`regime_known = regime_on = false`. -/
theorem regime_filter_correct (features : List RegimeSrcRow) (requested : List String)
    (benchmark : String) (out : List RegimeOutRow) (table : List RegimeEntry)
    (hok : applyMarketRegimeFilterCore features requested benchmark = .ok out)
    (htab : buildRegimeTable (regimeDedupeLatest features) benchmark = .ok table) :
    (∀ e ∈ table, ∃ r ∈ regimeDedupeLatest features, r.symbol = benchmark ∧
      e.date = r.date ∧ e.benchmark_adj_close = r.adj_close ∧
      e.benchmark_sma200 = r.sma200 ∧
      (e.regime_known = true ↔ r.adj_close.isSome ∧ r.sma200.isSome) ∧
      (e.regime_on = true ↔ ∃ a s, r.adj_close = some a ∧ r.sma200 = some s ∧ s < a)) ∧
    (∀ m ∈ out, ∀ e ∈ table, e.date = m.row.date →
      m.regime_known = e.regime_known ∧ m.regime_on = e.regime_on) ∧
    (∀ m ∈ out, (∀ e ∈ table, e.date ≠ m.row.date) →
      m.regime_known = false ∧ m.regime_on = false) := by
  have htab2 := htab
  unfold buildRegimeTable at htab2
  by_cases hbe : ((regimeDedupeLatest features).filter
      (fun r => decide (r.symbol = benchmark))).isEmpty
  · rw [if_pos hbe] at htab2
    cases htab2
  · rw [if_neg hbe] at htab2
    rw [Except.ok.injEq] at htab2
    have hout : out = mergeRegime
        ((regimeDedupeLatest features).filter (fun r => decide (r.symbol ∈ requested)))
        table benchmark := by
      unfold applyMarketRegimeFilterCore at hok
      dsimp only at hok
      rw [htab] at hok
      simp only [Except.ok.injEq] at hok
      exact hok.symm
    have hkeynodup : (regimeDedupeLatest features).Pairwise
        (fun a b => regimeKey a ≠ regimeKey b) :=
      keepLastPerKey_nodup_keys regimeKey _
    have hbench_nodup : (((regimeDedupeLatest features).filter
        (fun r => decide (r.symbol = benchmark)))).Pairwise
        (fun a b => a.date ≠ b.date) := by
      refine List.Pairwise.imp_of_mem ?_
        (List.Pairwise.sublist (List.filter_sublist _) hkeynodup)
      intro a b ha hb hkne hdeq
      rcases List.mem_filter.1 ha with ⟨-, ha2⟩
      rcases List.mem_filter.1 hb with ⟨-, hb2⟩
      rw [decide_eq_true_eq] at ha2 hb2
      exact hkne (by simp [regimeKey, ha2, hb2, hdeq])
    have htable_nodup : table.Pairwise (fun a b => a.date ≠ b.date) := by
      rw [← htab2]
      exact List.pairwise_map.2 hbench_nodup
    have huniq : ∀ e₁ ∈ table, ∀ e₂ ∈ table, e₁.date = e₂.date → e₁ = e₂ := by
      intro e₁ h₁ e₂ h₂ hdeq
      by_contra hne
      have hsym : Symmetric (fun a b : RegimeEntry => a.date ≠ b.date) :=
        fun x y h => h.symm
      exact List.Pairwise.forall hsym htable_nodup h₁ h₂ hne hdeq
    refine ⟨?_, ?_, ?_⟩
    · intro e he
      rw [← htab2] at he
      rcases List.mem_map.1 he with ⟨r, hr, rfl⟩
      rcases List.mem_filter.1 hr with ⟨hrmem, hrsym⟩
      rw [decide_eq_true_eq] at hrsym
      refine ⟨r, hrmem, hrsym, rfl, rfl, rfl, ?_, ?_⟩
      · simp
      · constructor
        · intro h
          simp only [Bool.and_eq_true, Option.isSome_iff_exists] at h
          rcases h with ⟨⟨⟨a, ha⟩, ⟨s, hs⟩⟩, hgt⟩
          exact ⟨a, s, ha, hs, by simpa [optGt, ha, hs] using hgt⟩
        · rintro ⟨a, s, ha, hs, hlt⟩
          simp [ha, hs, optGt, hlt]
    · intro m hm e he hdate
      rw [hout] at hm
      rcases List.mem_flatMap.1 hm with ⟨t, ht, hblock⟩
      rcases hfil : table.filter (fun x => decide (x.date = t.date)) with - | ⟨e0, es⟩
      · rw [hfil] at hblock
        simp only [List.mem_singleton] at hblock
        subst hblock
        exfalso
        have := List.filter_eq_nil_iff.1 hfil e he
        simp only [decide_eq_true_eq] at this
        exact this hdate
      · rw [hfil] at hblock
        rcases List.mem_map.1 hblock with ⟨ep, hep, rfl⟩
        have hep2 : ep ∈ table.filter (fun x => decide (x.date = t.date)) := by
          rw [hfil]; exact hep
        rcases List.mem_filter.1 hep2 with ⟨hepmem, hepdate⟩
        rw [decide_eq_true_eq] at hepdate
        have : e = ep := huniq e he ep hepmem (by rw [hepdate]; exact hdate)
        subst this
        exact ⟨rfl, rfl⟩
    · intro m hm hnone
      rw [hout] at hm
      rcases List.mem_flatMap.1 hm with ⟨t, ht, hblock⟩
      rcases hfil : table.filter (fun x => decide (x.date = t.date)) with - | ⟨e0, es⟩
      · rw [hfil] at hblock
        simp only [List.mem_singleton] at hblock
        subst hblock
        exact ⟨rfl, rfl⟩
      · rw [hfil] at hblock
        rcases List.mem_map.1 hblock with ⟨ep, hep, rfl⟩
        have hep2 : ep ∈ table.filter (fun x => decide (x.date = t.date)) := by
          rw [hfil]; exact hep
        rcases List.mem_filter.1 hep2 with ⟨hepmem, hepdate⟩
        rw [decide_eq_true_eq] at hepdate
        exact absurd hepdate (hnone ep hepmem)

/-- C3 witness: the spec's regime-join example.  Benchmark rows
`(d1, 100, 90), (d2, 90, 90), (d3, 95, null)`; the target symbol inherits
`known/on` of `(true, true), (true, false), (false, false)`, and on `d2` the
inherited verdict equals the benchmark entry's verdict. -/
theorem regime_filter_correct_witness :
    (({ row := ⟨"AAPL", some 2, some 10, some 5, none⟩, regime_known := true,
        regime_on := false, benchmark_adj_close := some 90,
        benchmark_sma200 := some 90,
        regime_benchmark_symbol := "SPY" } : RegimeOutRow).regime_known
      = ({ date := some 2, regime_on := false, regime_known := true,
           benchmark_adj_close := some 90,
           benchmark_sma200 := some 90 } : RegimeEntry).regime_known) ∧
    (({ row := ⟨"AAPL", some 2, some 10, some 5, none⟩, regime_known := true,
        regime_on := false, benchmark_adj_close := some 90,
        benchmark_sma200 := some 90,
        regime_benchmark_symbol := "SPY" } : RegimeOutRow).regime_on
      = ({ date := some 2, regime_on := false, regime_known := true,
           benchmark_adj_close := some 90,
           benchmark_sma200 := some 90 } : RegimeEntry).regime_on) :=
  (regime_filter_correct
    [⟨"SPY", some 1, some 100, some 90, none⟩, ⟨"SPY", some 2, some 90, some 90, none⟩,
     ⟨"SPY", some 3, some 95, none, none⟩, ⟨"AAPL", some 1, some 10, some 5, none⟩,
     ⟨"AAPL", some 2, some 10, some 5, none⟩, ⟨"AAPL", some 3, some 10, some 5, none⟩]
    ["AAPL"] "SPY"
    [{ row := ⟨"AAPL", some 1, some 10, some 5, none⟩, regime_known := true,
       regime_on := true, benchmark_adj_close := some 100, benchmark_sma200 := some 90,
       regime_benchmark_symbol := "SPY" },
     { row := ⟨"AAPL", some 2, some 10, some 5, none⟩, regime_known := true,
       regime_on := false, benchmark_adj_close := some 90, benchmark_sma200 := some 90,
       regime_benchmark_symbol := "SPY" },
     { row := ⟨"AAPL", some 3, some 10, some 5, none⟩, regime_known := false,
       regime_on := false, benchmark_adj_close := some 95, benchmark_sma200 := none,
       regime_benchmark_symbol := "SPY" }]
    [{ date := some 1, regime_on := true, regime_known := true,
       benchmark_adj_close := some 100, benchmark_sma200 := some 90 },
     { date := some 2, regime_on := false, regime_known := true,
       benchmark_adj_close := some 90, benchmark_sma200 := some 90 },
     { date := some 3, regime_on := false, regime_known := false,
       benchmark_adj_close := some 95, benchmark_sma200 := none }]
    rfl rfl).2.1
    { row := ⟨"AAPL", some 2, some 10, some 5, none⟩, regime_known := true,
      regime_on := false, benchmark_adj_close := some 90, benchmark_sma200 := some 90,
      regime_benchmark_symbol := "SPY" } (by decide)
    { date := some 2, regime_on := false, regime_known := true,
      benchmark_adj_close := some 90, benchmark_sma200 := some 90 } (by decide) rfl

theorem getD_range_map {β : Type} (f : ℕ → β) (n i : ℕ) (d : β) (h : i < n) :
    ((List.range n).map f).getD i d = f i := by
  rw [List.getD_eq_getElem?_getD, List.getElem?_map, List.getElem?_range h]
  rfl

theorem getD_mem_of_lt {α : Type} :
    ∀ (l : List α) (i : ℕ) (d : α), i < l.length → l.getD i d ∈ l := by
  intro l
  induction l with
  | nil => intro i d h; simp at h
  | cons a t ih =>
    intro i d h
    cases i with
    | zero =>
      rw [List.getD_cons_zero]
      exact List.mem_cons_self _ _
    | succ n =>
      rw [List.getD_cons_succ]
      exact List.mem_cons_of_mem _ (ih n d (by simpa using Nat.lt_of_succ_lt_succ h))

theorem length_le_length_flatMap {α β : Type} (l : List α) (g : α → List β)
    (h : ∀ a ∈ l, g a ≠ []) : l.length ≤ (l.flatMap g).length := by
  induction l with
  | nil => simp
  | cons a t ih =>
    rw [List.flatMap_cons, List.length_append, List.length_cons]
    have h1 : 1 ≤ (g a).length := by
      rcases hg : g a with - | ⟨x, xs⟩
      · exact absurd hg (h a (List.mem_cons_self _ _))
      · simp
    have h2 := ih (fun b hb => h b (List.mem_cons_of_mem _ hb))
    omega

theorem candidatesFor_length_ge (raw adj : List RawRow) :
    raw.length ≤ (candidatesFor raw adj).length := by
  refine length_le_length_flatMap raw _ ?_
  intro r hr
  dsimp only
  by_cases hms : ((adj.filter (fun m => decide (m.date = r.date))).isEmpty) = true
  · rw [if_pos hms]
    simp
  · rw [if_neg hms]
    simp only [ne_eq, List.map_eq_nil_iff]
    rw [List.isEmpty_iff] at hms
    exact hms

theorem candidatesFor_mem (raw adj : List RawRow) :
    ∀ p ∈ candidatesFor raw adj,
      (∃ r ∈ raw, p.1 = r.close) ∧ (∀ x, p.2 = some x → ∃ m ∈ adj, x = m.close) := by
  intro p hp
  unfold candidatesFor at hp
  rcases List.mem_flatMap.1 hp with ⟨r, hr, hblock⟩
  dsimp only at hblock
  by_cases hms : ((adj.filter (fun m => decide (m.date = r.date))).isEmpty) = true
  · rw [if_pos hms] at hblock
    simp only [List.mem_singleton] at hblock
    subst hblock
    exact ⟨⟨r, hr, rfl⟩, fun x hx => by cases hx⟩
  · rw [if_neg hms] at hblock
    rcases List.mem_map.1 hblock with ⟨m, hm, rfl⟩
    rcases List.mem_filter.1 hm with ⟨hmadj, -⟩
    exact ⟨⟨r, hr, rfl⟩, fun x hx => by
      rw [Option.some.injEq] at hx
      exact ⟨m, hmadj, hx.symm⟩⟩

/-- C5 counterexample: the claim that `adjustment_factor` is always positive
fails — a broker adjusted stream carrying a negative adjusted close (raw
close 100, adjusted close -100 for the same date) yields
`adjustment_factor = -1`, which the code accepts unchanged. -/
theorem adjustment_factor_not_always_positive :
    buildSymbolFramesCore "SPY"
      [⟨some 0, some 99, some 101, some 98, some 100, some 1000⟩]
      (.ok [⟨some 0, some 99, some 101, some 98, some (-100), some 0⟩])
      = .ok ([⟨"SPY", 0, 99, 101, 98, 100, 1000, -100, -1, "ibkr_adjusted_last_factor"⟩],
        "ibkr_adjusted_last_factor", []) ∧
    ((-1 : ℚ) < 0) := by
  constructor
  · norm_num [buildSymbolFramesCore, barsToFrame, candidatesFor, normRowAdjusted,
      List.insertionSort, List.orderedInsert, ratTrunc, List.filterMap, List.flatMap,
      List.range, List.range.loop, defaultRawRow]
  · norm_num

/-- C5 amended: the adjustment factor is `1.0` (with `adj_close = close`,
method `none`, exactly one warning) in every fallback case; in the adjusted
branch each merged row's factor is `adjusted_close / close` guarded at a zero
close, unmatched dates fall back to `adj_close = close` with factor `1.0`;
and the factor is positive provided the raw and matched adjusted closes are
positive (always finite over the exact-arithmetic model). -/
theorem build_symbol_frames_adjustment (symbol : String) (rawBars : List Bar)
    (adjResult : Except String (List Bar)) (rows : List NormalizedOut)
    (method : String) (warns : List String)
    (hok : buildSymbolFramesCore symbol rawBars adjResult = .ok (rows, method, warns)) :
    (method = "none" ∨ method = "ibkr_adjusted_last_factor") ∧
    (method = "none" → warns.length = 1 ∧ ∀ r ∈ rows,
      r.adjustment_factor = 1 ∧ r.adj_close = r.close) ∧
    (method = "ibkr_adjusted_last_factor" → warns = [] ∧
      ∃ adjBars, adjResult = .ok adjBars ∧
      rows.length = (barsToFrame rawBars).length ∧
      (∀ i, i < rows.length →
        (rows.getD i defaultNormalizedOut).adj_close =
          ((candidatesFor (barsToFrame rawBars) (barsToFrame adjBars)).getD i (0, none)).2.getD
            ((candidatesFor (barsToFrame rawBars) (barsToFrame adjBars)).getD i (0, none)).1 ∧
        (rows.getD i defaultNormalizedOut).adjustment_factor =
          (if ((candidatesFor (barsToFrame rawBars) (barsToFrame adjBars)).getD i (0, none)).1 = 0
           then 1
           else ((candidatesFor (barsToFrame rawBars) (barsToFrame adjBars)).getD i (0, none)).2.getD
              ((candidatesFor (barsToFrame rawBars) (barsToFrame adjBars)).getD i (0, none)).1 /
              ((candidatesFor (barsToFrame rawBars) (barsToFrame adjBars)).getD i (0, none)).1) ∧
        (((candidatesFor (barsToFrame rawBars) (barsToFrame adjBars)).getD i (0, none)).2 = none →
          (rows.getD i defaultNormalizedOut).adj_close =
            ((candidatesFor (barsToFrame rawBars) (barsToFrame adjBars)).getD i (0, none)).1 ∧
          (rows.getD i defaultNormalizedOut).adjustment_factor = 1))) ∧
    ((∀ r ∈ barsToFrame rawBars, 0 < r.close) →
     (∀ ab, adjResult = Except.ok ab → ∀ r ∈ barsToFrame ab, 0 < r.close) →
     ∀ r ∈ rows, 0 < r.adjustment_factor) := by
  unfold buildSymbolFramesCore at hok
  by_cases hraw : ((barsToFrame rawBars).isEmpty) = true
  · rw [if_pos hraw] at hok
    simp at hok
  · rw [if_neg hraw] at hok
    rcases adjResult with e | adjBars
    · simp only [Except.ok.injEq, Prod.mk.injEq] at hok
      rcases hok with ⟨hrows, hmethod, hwarns⟩
      subst hrows; subst hmethod; subst hwarns
      refine ⟨Or.inl rfl, ?_, ?_, ?_⟩
      · intro _
        refine ⟨rfl, ?_⟩
        intro r hr
        rcases List.mem_map.1 hr with ⟨s, -, rfl⟩
        exact ⟨rfl, rfl⟩
      · intro hcontra
        exact absurd hcontra (by decide)
      · intro _ _ r hr
        rcases List.mem_map.1 hr with ⟨s, -, rfl⟩
        norm_num [normRowDefault]
    · dsimp only at hok
      by_cases hadj : ((barsToFrame adjBars).isEmpty) = true
      · rw [if_pos hadj] at hok
        simp only [Except.ok.injEq, Prod.mk.injEq] at hok
        rcases hok with ⟨hrows, hmethod, hwarns⟩
        subst hrows; subst hmethod; subst hwarns
        refine ⟨Or.inl rfl, ?_, ?_, ?_⟩
        · intro _
          refine ⟨rfl, ?_⟩
          intro r hr
          rcases List.mem_map.1 hr with ⟨s, -, rfl⟩
          exact ⟨rfl, rfl⟩
        · intro hcontra
          exact absurd hcontra (by decide)
        · intro _ _ r hr
          rcases List.mem_map.1 hr with ⟨s, -, rfl⟩
          norm_num [normRowDefault]
      · rw [if_neg hadj] at hok
        by_cases hany : ((candidatesFor (barsToFrame rawBars) (barsToFrame adjBars)).any
            (fun p => p.2.isSome)) = true
        · rw [if_pos hany] at hok
          simp only [Except.ok.injEq, Prod.mk.injEq] at hok
          rcases hok with ⟨hrows, hmethod, hwarns⟩
          subst hmethod; subst hwarns
          have hlen : rows.length = (barsToFrame rawBars).length := by
            rw [← hrows, List.length_map, List.length_range]
          refine ⟨Or.inr rfl, ?_, ?_, ?_⟩
          · intro hcontra
            exact absurd hcontra (by decide)
          · intro _
            refine ⟨rfl, adjBars, rfl, hlen, ?_⟩
            intro i hi
            have hget : rows.getD i defaultNormalizedOut =
                normRowAdjusted symbol ((barsToFrame rawBars).getD i defaultRawRow)
                  ((candidatesFor (barsToFrame rawBars) (barsToFrame adjBars)).getD i (0, none)).1
                  ((candidatesFor (barsToFrame rawBars) (barsToFrame adjBars)).getD i (0, none)).2 := by
              rw [← hrows]
              exact getD_range_map _ _ _ _ (by rw [hlen] at hi; exact hi)
            rw [hget]
            unfold normRowAdjusted
            dsimp only
            refine ⟨rfl, rfl, ?_⟩
            intro hc
            rw [hc]
            refine ⟨rfl, ?_⟩
            by_cases hz : ((candidatesFor (barsToFrame rawBars)
                (barsToFrame adjBars)).getD i (0, none)).1 = 0
            · rw [if_pos hz]
            · rw [if_neg hz]
              simp only [Option.getD_none]
              exact div_self hz
          · intro hrawpos hadjpos r hr
            rw [← hrows] at hr
            rcases List.mem_map.1 hr with ⟨i, hi, rfl⟩
            have hi2 : i < (barsToFrame rawBars).length := List.mem_range.1 hi
            have hi3 : i < (candidatesFor (barsToFrame rawBars) (barsToFrame adjBars)).length :=
              lt_of_lt_of_le hi2 (candidatesFor_length_ge _ _)
            have hpmem := getD_mem_of_lt
              (candidatesFor (barsToFrame rawBars) (barsToFrame adjBars)) i (0, none) hi3
            rcases candidatesFor_mem _ _ _ hpmem with ⟨⟨rr, hrr, hclose⟩, hcand⟩
            have hmc : 0 < ((candidatesFor (barsToFrame rawBars)
                (barsToFrame adjBars)).getD i (0, none)).1 := by
              rw [hclose]
              exact hrawpos rr hrr
            show 0 < (normRowAdjusted symbol _ _ _).adjustment_factor
            unfold normRowAdjusted
            dsimp only
            by_cases hz : ((candidatesFor (barsToFrame rawBars)
                (barsToFrame adjBars)).getD i (0, none)).1 = 0
            · rw [if_pos hz]
              norm_num
            · rw [if_neg hz]
              rcases hcv : ((candidatesFor (barsToFrame rawBars)
                  (barsToFrame adjBars)).getD i (0, none)).2 with - | x
              · simp only [Option.getD_none]
                exact div_pos hmc hmc
              · simp only [Option.getD_some]
                rcases hcand x hcv with ⟨m, hmadj, rfl⟩
                exact div_pos (hadjpos adjBars rfl m hmadj) hmc
        · rw [if_neg hany] at hok
          simp only [Except.ok.injEq, Prod.mk.injEq] at hok
          rcases hok with ⟨hrows, hmethod, hwarns⟩
          subst hrows; subst hmethod; subst hwarns
          refine ⟨Or.inl rfl, ?_, ?_, ?_⟩
          · intro _
            refine ⟨rfl, ?_⟩
            intro r hr
            rcases List.mem_map.1 hr with ⟨s, -, rfl⟩
            exact ⟨rfl, rfl⟩
          · intro hcontra
            exact absurd hcontra (by decide)
          · intro _ _ r hr
            rcases List.mem_map.1 hr with ⟨s, -, rfl⟩
            norm_num [normRowDefault]

/-- C5 amended witness: with an empty adjusted stream, both rows fall back to
`adj_close = close` with factor `1.0`, the method is `none`, and exactly one
warning is recorded. -/
theorem build_symbol_frames_adjustment_witness :
    (["No ADJUSTED_LAST bars available for SPY; using close as adj_close."] :
      List String).length = 1 ∧
    ∀ r ∈ [normRowDefault "SPY" ⟨0, 99, 101, 98, 100, 1000⟩,
           normRowDefault "SPY" ⟨1, 109, 111, 108, 110, 1000⟩],
      r.adjustment_factor = 1 ∧ r.adj_close = r.close :=
  (build_symbol_frames_adjustment "SPY"
    [⟨some 0, some 99, some 101, some 98, some 100, some 1000⟩,
     ⟨some 1, some 109, some 111, some 108, some 110, some 1000⟩]
    (.ok [])
    [normRowDefault "SPY" ⟨0, 99, 101, 98, 100, 1000⟩,
     normRowDefault "SPY" ⟨1, 109, 111, 108, 110, 1000⟩]
    "none"
    ["No ADJUSTED_LAST bars available for SPY; using close as adj_close."]
    rfl).2.1 rfl

/-- If the first `k` attempts fail and attempt `a + k` succeeds within the
remaining budget, the retry loop returns those bars after exactly `k`
further sleeps. -/
theorem retryGo_first_ok (f : ℕ → Except String (List Bar)) :
    ∀ (k fuel a : ℕ) (lastE : Option String) (s : ℕ) (bars : List Bar),
      k < fuel → f (a + k) = .ok bars →
      (∀ j, j < k → ∃ e, f (a + j) = .error e) →
      retryGo f fuel a lastE s = (.ok bars, s + k) := by
  intro k
  induction k with
  | zero =>
    intro fuel a lastE s bars hlt hok hfail
    rw [Nat.add_zero] at hok
    match fuel, hlt with
    | fu + 1, _ =>
      unfold retryGo
      rw [hok]
      simp
  | succ k ih =>
    intro fuel a lastE s bars hlt hok hfail
    rcases hfail 0 (Nat.succ_pos k) with ⟨e, he⟩
    rw [Nat.add_zero] at he
    match fuel, hlt with
    | fu + 1, hlt =>
      unfold retryGo
      rw [he]
      dsimp only
      rw [if_neg (by omega : ¬ fu = 0)]
      have hok2 : f (a + 1 + k) = .ok bars := by
        have h2 : a + 1 + k = a + (k + 1) := by omega
        rw [h2]; exact hok
      have hfail2 : ∀ j, j < k → ∃ e2, f (a + 1 + j) = .error e2 := by
        intro j hj
        have h2 : a + 1 + j = a + (j + 1) := by omega
        rw [h2]; exact hfail (j + 1) (by omega)
      rw [ih fu (a + 1) (some e) (s + 1) bars (by omega) hok2 hfail2]
      have h3 : s + 1 + k = s + (k + 1) := by omega
      rw [h3]

/-- If every attempt from `a` on fails, the retry loop exhausts its budget,
sleeps between each pair of attempts, and re-raises the last attempt's
error. -/
theorem retryGo_all_fail (f : ℕ → Except String (List Bar)) :
    ∀ (fuel a : ℕ) (lastE : Option String) (s : ℕ),
      0 < fuel →
      (∀ j, a ≤ j → j < a + fuel → ∃ e, f j = .error e) →
      ∃ e, f (a + fuel - 1) = .error e ∧
        retryGo f fuel a lastE s = (.error e, s + (fuel - 1)) := by
  intro fuel
  induction fuel with
  | zero => intro a lastE s hpos; exact absurd hpos (by omega)
  | succ fu ih =>
    intro a lastE s hpos hfail
    rcases hfail a (Nat.le_refl a) (by omega) with ⟨e0, he0⟩
    by_cases hfu : fu = 0
    · subst hfu
      refine ⟨e0, by simpa using he0, ?_⟩
      unfold retryGo
      rw [he0]
      simp
    · rcases ih (a + 1) (some e0) (s + 1) (by omega)
        (fun j hj1 hj2 => hfail j (by omega) (by omega)) with ⟨e, hee, hrec⟩
      refine ⟨e, ?_, ?_⟩
      · have h2 : a + 1 + fu - 1 = a + (fu + 1) - 1 := by omega
        rw [← h2]; exact hee
      · unfold retryGo
        rw [he0]
        dsimp only
        rw [if_neg hfu, hrec]
        have h2 : s + 1 + (fu - 1) = s + (fu + 1 - 1) := by omega
        rw [h2]

/-- `ingestStep` on a successful symbol appends the result. -/
theorem ingestStep_ok (client : String → String → ℕ → Except String (List Bar))
    (maxR : ℕ) (acc : List SymbolResult × List (String × String))
    (sym : String) (res : SymbolResult)
    (h : processSymbol client maxR sym = .ok res) :
    ingestStep client maxR acc sym = (acc.1 ++ [res], acc.2) := by
  unfold ingestStep
  rw [h]

/-- `ingestStep` on a failing symbol records the failure for that symbol
only. -/
theorem ingestStep_error (client : String → String → ℕ → Except String (List Bar))
    (maxR : ℕ) (acc : List SymbolResult × List (String × String))
    (sym e : String)
    (h : processSymbol client maxR sym = .error e) :
    ingestStep client maxR acc sym = (acc.1, insertFailure acc.2 sym e) := by
  unfold ingestStep
  rw [h]

/-- A successful `processSymbol` reports the processed symbol itself. -/
theorem processSymbol_symbol (client : String → String → ℕ → Except String (List Bar))
    (maxR : ℕ) (sym : String) (res : SymbolResult)
    (h : processSymbol client maxR sym = .ok res) : res.symbol = sym := by
  unfold processSymbol at h
  split at h
  · exact absurd h (by simp)
  · split at h
    · exact absurd h (by simp)
    · simp only [Except.ok.injEq] at h
      rw [← h]

/-- Recording one failure preserves every existing failure key. -/
theorem insertFailure_mem_of_mem (fs : List (String × String)) (sym msg k e : String)
    (h : (k, e) ∈ fs) : ∃ e2, (k, e2) ∈ insertFailure fs sym msg := by
  unfold insertFailure
  by_cases hany : fs.any (fun p => p.1 = sym) = true
  · rw [if_pos hany]
    by_cases hk : k = sym
    · subst hk
      exact ⟨msg, List.mem_map.2 ⟨(k, e), h, by simp⟩⟩
    · exact ⟨e, List.mem_map.2 ⟨(k, e), h, by simp [hk]⟩⟩
  · rw [if_neg hany]
    exact ⟨e, List.mem_append_left _ h⟩

/-- Recording a failure puts its symbol among the failure keys. -/
theorem insertFailure_self_mem (fs : List (String × String)) (sym msg : String) :
    ∃ e2, (sym, e2) ∈ insertFailure fs sym msg := by
  unfold insertFailure
  by_cases hany : fs.any (fun p => p.1 = sym) = true
  · rw [if_pos hany]
    rcases List.any_eq_true.1 hany with ⟨p, hp, hpe⟩
    rw [decide_eq_true_eq] at hpe
    exact ⟨msg, List.mem_map.2 ⟨p, hp, by simp [hpe]⟩⟩
  · rw [if_neg hany]
    exact ⟨msg, List.mem_append_right _ (List.mem_cons_self _ _)⟩

/-- A key of the updated failures map is the new symbol or an old key. -/
theorem insertFailure_mem_inv (fs : List (String × String)) (sym msg k e : String)
    (h : (k, e) ∈ insertFailure fs sym msg) : k = sym ∨ ∃ e2, (k, e2) ∈ fs := by
  unfold insertFailure at h
  by_cases hany : fs.any (fun p => p.1 = sym) = true
  · rw [if_pos hany] at h
    rcases List.mem_map.1 h with ⟨p, hp, hpe⟩
    by_cases hps : p.1 = sym
    · rw [if_pos hps] at hpe
      simp only [Prod.mk.injEq] at hpe
      exact Or.inl hpe.1.symm
    · rw [if_neg hps] at hpe
      exact Or.inr ⟨e, hpe ▸ hp⟩
  · rw [if_neg hany] at h
    rcases List.mem_append.1 h with h2 | h2
    · exact Or.inr ⟨e, h2⟩
    · have h3 := List.mem_singleton.1 h2
      simp only [Prod.mk.injEq] at h3
      exact Or.inl h3.1

/-- Recording a fresh failure key grows the failures map by one entry. -/
theorem insertFailure_length_of_not_any (fs : List (String × String)) (sym msg : String)
    (h : ¬ fs.any (fun p => p.1 = sym) = true) :
    (insertFailure fs sym msg).length = fs.length + 1 := by
  unfold insertFailure
  rw [if_neg h]
  simp

/-- The ingestion loop never drops an already-collected result. -/
theorem ingest_foldl_results_mono (client : String → String → ℕ → Except String (List Bar))
    (maxR : ℕ) :
    ∀ (syms : List String) (acc : List SymbolResult × List (String × String))
      (r : SymbolResult), r ∈ acc.1 →
      r ∈ (syms.foldl (ingestStep client maxR) acc).1 := by
  intro syms
  induction syms with
  | nil => intro acc r h; simpa using h
  | cons s t ih =>
    intro acc r h
    rw [List.foldl_cons]
    apply ih
    rcases hps : processSymbol client maxR s with e | res
    · rw [ingestStep_error client maxR acc s e hps]
      exact h
    · rw [ingestStep_ok client maxR acc s res hps]
      exact List.mem_append_left _ h

/-- The ingestion loop never drops an already-recorded failure key. -/
theorem ingest_foldl_failures_mono (client : String → String → ℕ → Except String (List Bar))
    (maxR : ℕ) :
    ∀ (syms : List String) (acc : List SymbolResult × List (String × String))
      (k : String), (∃ e, (k, e) ∈ acc.2) →
      ∃ e, (k, e) ∈ (syms.foldl (ingestStep client maxR) acc).2 := by
  intro syms
  induction syms with
  | nil => intro acc k h; simpa using h
  | cons s t ih =>
    intro acc k h
    rw [List.foldl_cons]
    apply ih
    rcases hps : processSymbol client maxR s with e | res
    · rw [ingestStep_error client maxR acc s e hps]
      rcases h with ⟨e2, he2⟩
      exact insertFailure_mem_of_mem acc.2 s e k e2 he2
    · rw [ingestStep_ok client maxR acc s res hps]
      exact h

/-- Every processed symbol ends up in the results list (under its own name)
or as a key of the failures map. -/
theorem ingest_foldl_accounted (client : String → String → ℕ → Except String (List Bar))
    (maxR : ℕ) :
    ∀ (syms : List String) (acc : List SymbolResult × List (String × String))
      (sym : String), sym ∈ syms →
      (∃ r ∈ (syms.foldl (ingestStep client maxR) acc).1, r.symbol = sym) ∨
      ∃ e, (sym, e) ∈ (syms.foldl (ingestStep client maxR) acc).2 := by
  intro syms
  induction syms with
  | nil => intro acc sym h; exact absurd h (List.not_mem_nil sym)
  | cons s t ih =>
    intro acc sym hmem
    rw [List.foldl_cons]
    rcases List.mem_cons.1 hmem with heq | hmem2
    · rcases hps : processSymbol client maxR s with e | res
      · right
        apply ingest_foldl_failures_mono client maxR t _ sym
        rw [ingestStep_error client maxR acc s e hps, heq]
        exact insertFailure_self_mem acc.2 s e
      · left
        refine ⟨res, ingest_foldl_results_mono client maxR t _ res ?_, ?_⟩
        · rw [ingestStep_ok client maxR acc s res hps]
          exact List.mem_append_right _ (List.mem_cons_self _ _)
        · rw [heq]
          exact processSymbol_symbol client maxR s res hps
    · exact ih (ingestStep client maxR acc s) sym hmem2

/-- On duplicate-free symbols whose keys are absent from the accumulated
failures, each loop step adds exactly one result or one failure entry. -/
theorem ingest_foldl_counts (client : String → String → ℕ → Except String (List Bar))
    (maxR : ℕ) :
    ∀ (syms : List String) (acc : List SymbolResult × List (String × String)),
      syms.Nodup →
      (∀ u ∈ syms, ¬ acc.2.any (fun p => p.1 = u) = true) →
      (syms.foldl (ingestStep client maxR) acc).1.length
          + (syms.foldl (ingestStep client maxR) acc).2.length
        = acc.1.length + acc.2.length + syms.length := by
  intro syms
  induction syms with
  | nil => intro acc _ _; simp
  | cons s t ih =>
    intro acc hnd hfresh
    rcases List.nodup_cons.1 hnd with ⟨hsnot, hnd2⟩
    rw [List.foldl_cons]
    rcases hps : processSymbol client maxR s with e | res
    · rw [ingestStep_error client maxR acc s e hps]
      have hfr : ¬ acc.2.any (fun p => p.1 = s) = true :=
        hfresh s (List.mem_cons_self _ _)
      have hfresh2 : ∀ u ∈ t,
          ¬ (insertFailure acc.2 s e).any (fun p => p.1 = u) = true := by
        intro u hu hcon
        rcases List.any_eq_true.1 hcon with ⟨p, hp, hpe⟩
        rw [decide_eq_true_eq] at hpe
        have hp2 : (u, p.2) ∈ insertFailure acc.2 s e := by
          rw [← hpe]
          exact hp
        rcases insertFailure_mem_inv acc.2 s e u p.2 hp2 with hus | ⟨e2, he2⟩
        · exact hsnot (hus ▸ hu)
        · exact hfresh u (List.mem_cons_of_mem _ hu)
            (List.any_eq_true.2 ⟨(u, e2), he2, by simp⟩)
      have hlen := insertFailure_length_of_not_any acc.2 s e hfr
      have hrec := ih (acc.1, insertFailure acc.2 s e) hnd2 hfresh2
      rw [hrec]
      dsimp only
      rw [hlen, List.length_cons]
      omega
    · rw [ingestStep_ok client maxR acc s res hps]
      have hfresh2 : ∀ u ∈ t, ¬ acc.2.any (fun p => p.1 = u) = true :=
        fun u hu => hfresh u (List.mem_cons_of_mem _ hu)
      have hrec := ih (acc.1 ++ [res], acc.2) hnd2 hfresh2
      rw [hrec]
      dsimp only
      rw [List.length_append, List.length_cons]
      simp only [List.length_nil, List.length_cons]
      omega

/-- C10: each external bar request is retried up to the configured maximum —
a first success at attempt `k` returns after `k` fixed-delay sleeps, and if
every attempt fails the loop sleeps between each pair of attempts and
re-raises the last attempt's error; per-symbol exceptions are recorded in the
failures map for that symbol only and the loop continues, so every requested
symbol is accounted for either by a result bearing its name or by a failures
entry; the run record is always produced with `symbols_succeeded` and
`symbols_failed` equal to the sizes of the results and failures, the metadata
report is always written, and on duplicate-free requests the two counts sum
to `symbols_requested` — even when every symbol fails. -/
theorem ingestion_retry_and_isolation
    (client : String → String → ℕ → Except String (List Bar))
    (symbols : List String) (maxRetries : ℕ) :
    (∀ (f : ℕ → Except String (List Bar)) (k : ℕ) (bars : List Bar),
        k < maxRetries → f k = .ok bars →
        (∀ j, j < k → ∃ e, f j = .error e) →
        requestBarsWithRetries f maxRetries = (.ok bars, k)) ∧
    (∀ f : ℕ → Except String (List Bar), 0 < maxRetries →
        (∀ j, j < maxRetries → ∃ e, f j = .error e) →
        ∃ e, f (maxRetries - 1) = .error e ∧
          requestBarsWithRetries f maxRetries = (.error e, maxRetries - 1)) ∧
    (∀ sym ∈ requestedOfIngest symbols,
        (∃ r ∈ (ingestDailyBarsCore client symbols maxRetries).results,
          r.symbol = sym) ∨
        ∃ e, (sym, e) ∈ (ingestDailyBarsCore client symbols maxRetries).failures) ∧
    ((ingestDailyBarsCore client symbols maxRetries).symbols_succeeded
        = (ingestDailyBarsCore client symbols maxRetries).results.length ∧
      (ingestDailyBarsCore client symbols maxRetries).symbols_failed
        = (ingestDailyBarsCore client symbols maxRetries).failures.length ∧
      (ingestDailyBarsCore client symbols maxRetries).metadata_written = true) ∧
    ((requestedOfIngest symbols).Nodup →
      (ingestDailyBarsCore client symbols maxRetries).symbols_succeeded
          + (ingestDailyBarsCore client symbols maxRetries).symbols_failed
        = (ingestDailyBarsCore client symbols maxRetries).symbols_requested) := by
  refine ⟨?_, ?_, ?_, ⟨rfl, rfl, rfl⟩, ?_⟩
  · intro f k bars hk hok hfail
    have h := retryGo_first_ok f k maxRetries 0 none 0 bars hk
      (by simpa using hok) (fun j hj => by simpa using hfail j hj)
    simpa [requestBarsWithRetries] using h
  · intro f hpos hfail
    rcases retryGo_all_fail f maxRetries 0 none 0 hpos
      (fun j hj1 hj2 => hfail j (by omega)) with ⟨e, hee, hrec⟩
    exact ⟨e, by simpa using hee, by simpa [requestBarsWithRetries] using hrec⟩
  · intro sym hs
    exact ingest_foldl_accounted client maxRetries (requestedOfIngest symbols)
      ([], []) sym hs
  · intro hnd
    have h := ingest_foldl_counts client maxRetries (requestedOfIngest symbols)
      ([], []) hnd (fun u _ => by simp)
    simpa [ingestDailyBarsCore] using h

/-- C10 witness: with a broker that always raises and a budget of 2 attempts,
the retry loop re-raises the last error after one sleep, the symbol SPY gets
its own failures entry, and the run accounts for both requested symbols
(0 succeeded + 2 failed = 2 requested). -/
theorem ingestion_retry_and_isolation_witness :
    (∃ e, (fun _ : ℕ => (Except.error "io down" : Except String (List Bar))) (2 - 1)
        = .error e ∧
      requestBarsWithRetries (fun _ => .error "io down") 2 = (.error e, 2 - 1)) ∧
    ((∃ r ∈ (ingestDailyBarsCore (fun _ _ _ => .error "io down")
          ["SPY", "QQQ"] 2).results, r.symbol = "SPY") ∨
      ∃ e, ("SPY", e) ∈ (ingestDailyBarsCore (fun _ _ _ => .error "io down")
          ["SPY", "QQQ"] 2).failures) ∧
    (ingestDailyBarsCore (fun _ _ _ => .error "io down")
          ["SPY", "QQQ"] 2).symbols_succeeded
        + (ingestDailyBarsCore (fun _ _ _ => .error "io down")
            ["SPY", "QQQ"] 2).symbols_failed
      = (ingestDailyBarsCore (fun _ _ _ => .error "io down")
          ["SPY", "QQQ"] 2).symbols_requested :=
  ⟨(ingestion_retry_and_isolation (fun _ _ _ => .error "io down")
        ["SPY", "QQQ"] 2).2.1
      (fun _ => .error "io down") (by decide) (fun j hj => ⟨"io down", rfl⟩),
   (ingestion_retry_and_isolation (fun _ _ _ => .error "io down")
        ["SPY", "QQQ"] 2).2.2.1
      "SPY" (by decide),
   (ingestion_retry_and_isolation (fun _ _ _ => .error "io down")
        ["SPY", "QQQ"] 2).2.2.2.2
      (by decide)⟩

end CrossRegimeAlpha
